import Mathlib

/-!
# redump: codec, scan client, dump and restore pipelines

A shallow embedding of `keydata.go`, `client.go`, `dump.go` and `restore.go`.

Go strings and `[]byte` values are byte sequences; both are `List Byte` here.
The Go standard library functions the code calls (`encoding/base64`,
`strings.Split`, `strconv.Atoi`, `bufio.Reader.ReadString`) are embedded from
their Go sources, since the behaviour of the codec is decided inside them.

The store and the connection are an explicit state threaded through `Do` and
`Keys`.  The loops that need not end (`Dump`, `Restore`) take fuel.  The goroutines
of a pipeline are embedded one by one, each on the sequence of values it receives,
and `Close` on the state of the queues at the moment it is called; the scheduler
is not modelled.  Log output is not modelled.
-/

namespace Redump

/-- One octet. -/
abbrev Byte := Fin 256

/-- Go strings are byte sequences. -/
abbrev GoString := List Byte

/-- The bytes of an ASCII string literal. -/
def bytesOf (s : String) : GoString := s.toList.map (fun c => Fin.ofNat c.toNat)

/-- The errors the embedded code can return.  `corruptInput` is
`base64.CorruptInputError` (the byte offset it carries is not modelled),
`errorf` is a `fmt.Errorf` value, `badNumber` and `outOfRange` are the two causes
of a `strconv.NumError` (`ErrSyntax`, `ErrRange`), `EOF` is `io.EOF`, `transport`
is an error handed back by the connection. -/
inductive GoError where
  | corruptInput
  | errorf (msg : String)
  | badNumber
  | outOfRange
  | EOF
  | transport (msg : String)
  deriving DecidableEq, Repr

deriving instance DecidableEq for Except

/-- How a Go call ends: it returns, or the runtime panics. -/
inductive Outcome (α : Type) where
  | ret (a : α)
  | panic (msg : String)
  deriving DecidableEq, Repr

/-! ## encoding/base64 (StdEncoding: standard alphabet, padding `=`, not strict) -/

/-- The alphabet `encodeStd` of `encoding/base64`. -/
def encodeStd : GoString :=
  bytesOf "ABCDEFGHIJKLMNOPQRSTUVWXYZabcdefghijklmnopqrstuvwxyz0123456789+/"

/-- Table lookup `enc.encode[i]`. -/
def encodeChar (i : Nat) : Byte := encodeStd.getD i 0

/-- The padding character `StdPadding`, `=`. -/
def padChar : Byte := 61

/-- The table `enc.decodeMap` as `NewEncoding` builds it: every entry 0xff, then
`decodeMap[encoder[i]] = i` for the 64 alphabet positions. -/
def decodeMap : Byte → Nat :=
  (List.range 64).foldl (fun m i => Function.update m (encodeChar i) i) (fun _ => 0xff)

/-- Go `byte(x)`: truncation to 8 bits. -/
def toByte (x : Nat) : Byte := Fin.ofNat (x % 256)

/-- `(*Encoding).EncodeToString`: whole 3-byte groups become 4 characters, a
remainder of 1 or 2 bytes becomes 2 or 3 characters followed by padding. -/
def EncodeToString : List Byte → GoString
  | b0 :: b1 :: b2 :: rest =>
    let val := b0.val <<< 16 ||| b1.val <<< 8 ||| b2.val
    encodeChar (val >>> 18 &&& 0x3F) :: encodeChar (val >>> 12 &&& 0x3F) ::
      encodeChar (val >>> 6 &&& 0x3F) :: encodeChar (val &&& 0x3F) :: EncodeToString rest
  | [b0, b1] =>
    let val := b0.val <<< 16 ||| b1.val <<< 8
    [encodeChar (val >>> 18 &&& 0x3F), encodeChar (val >>> 12 &&& 0x3F),
      encodeChar (val >>> 6 &&& 0x3F), padChar]
  | [b0] =>
    let val := b0.val <<< 16
    [encodeChar (val >>> 18 &&& 0x3F), encodeChar (val >>> 12 &&& 0x3F), padChar, padChar]
  | [] => []

/-- The inner loops `for si < len(src) && (src[si] == '\n' || src[si] == '\r')`. -/
def skipNewlines : GoString → GoString
  | [] => []
  | c :: rest => if c = 10 ∨ c = 13 then skipNewlines rest else c :: rest

/-- The `for j := 0; j < len(dbuf); j++` loop of `decodeQuantum`, on the unread
source `src[si:]`.  `dbuf` holds the `j` six-bit values read so far.  The result
is `none` for the early `return si, 0, nil` (source exhausted at `j == 0`), and
otherwise the values read (`dlen` of them) with the unread rest of the source. -/
def quantumLoop : Nat → List Nat → GoString → Except GoError (Option (List Nat) × GoString)
  | j, dbuf, [] =>
    if 4 ≤ j then .ok (some dbuf, [])
    else if j = 0 then .ok (none, [])
    else .error .corruptInput
  | j, dbuf, c :: rest =>
    if 4 ≤ j then .ok (some dbuf, c :: rest)
    else
      let out := decodeMap c
      if out ≠ 0xff then quantumLoop (j + 1) (dbuf ++ [out]) rest
      else if c = 10 ∨ c = 13 then quantumLoop j dbuf rest
      else if c ≠ padChar then .error .corruptInput
      else
        match j with
        | 0 => .error .corruptInput
        | 1 => .error .corruptInput
        | 2 =>
          match skipNewlines rest with
          | [] => .error .corruptInput
          | c2 :: rest2 =>
            if c2 ≠ padChar then .error .corruptInput
            else
              match skipNewlines rest2 with
              | [] => .ok (some dbuf, [])
              | _ :: _ => .error .corruptInput
        | _ =>
          match skipNewlines rest with
          | [] => .ok (some dbuf, [])
          | _ :: _ => .error .corruptInput

/-- The tail of `decodeQuantum`: "Convert 4x 6bit source bytes into 3 bytes",
`dlen - 1` of which are written. -/
def quantumBytes (dbuf : List Nat) : List Byte :=
  let val := dbuf.getD 0 0 <<< 18 ||| dbuf.getD 1 0 <<< 12 ||| dbuf.getD 2 0 <<< 6 ||| dbuf.getD 3 0
  match dbuf.length with
  | 4 => [toByte (val >>> 16), toByte (val >>> 8), toByte val]
  | 3 => [toByte (val >>> 16), toByte (val >>> 8)]
  | 2 => [toByte (val >>> 16)]
  | _ => []

/-- `(*Encoding).decodeQuantum` at `src[si:]`: the bytes written and the unread
rest.  A call that returns an error yields `.error`; the bytes Go has written
before a trailing-garbage error are dropped, as every caller here discards them. -/
def decodeQuantum (src : GoString) : Except GoError (List Byte × GoString) :=
  match quantumLoop 0 [] src with
  | .error e => .error e
  | .ok (none, rest) => .ok ([], rest)
  | .ok (some dbuf, rest) => .ok (quantumBytes dbuf, rest)

/-- The loop `for si < len(src)` of `(*Encoding).Decode`.  The 8- and 4-character
fast paths of the Go source produce what `decodeQuantum` produces on the same
characters and are not modelled separately.  Every call of `decodeQuantum` on a
non-empty source consumes a byte, so `fuel = len(src)` is never used up
(`decodeLoop_fuel`). -/
def decodeLoop : Nat → GoString → Except GoError (List Byte)
  | _, [] => .ok []
  | 0, _ :: _ => .error .corruptInput
  | fuel + 1, c :: rest =>
    match decodeQuantum (c :: rest) with
    | .error e => .error e
    | .ok (out, rest2) =>
      match decodeLoop fuel rest2 with
      | .error e => .error e
      | .ok more => .ok (out ++ more)

/-- `(*Encoding).DecodeString`. -/
def DecodeString (s : GoString) : Except GoError (List Byte) :=
  decodeLoop s.length s

/-! ## strings.Split -/

/-- `strings.Split(s, sep)` for a one-byte separator: `s` is cut at every
occurrence of `sep`; a string without `sep` gives the one part `s`. -/
def Split (s : GoString) (sep : Byte) : List GoString :=
  match s with
  | [] => [[]]
  | c :: rest =>
    if c = sep then [] :: Split rest sep
    else
      match Split rest sep with
      | [] => [[c]]
      | part :: parts => (c :: part) :: parts

/-! ## keydata.go -/

/-- The constant `SEPARATOR = "\u0001"`: in UTF-8 the single byte 0x01. -/
def SEPARATOR : Byte := 1

/-- The struct `KeyData`. -/
structure KeyData where
  key : List Byte
  data : List Byte
  deriving DecidableEq, Repr

/-- The function `Encode`: `fmt.Sprintf("%s%s%s", key, SEPARATOR, data)`. -/
def Encode (kd : KeyData) : GoString :=
  EncodeToString kd.key ++ [SEPARATOR] ++ EncodeToString kd.data

/-- The function `Decode`. -/
def Decode (str : GoString) : Except GoError KeyData :=
  match Split str SEPARATOR with
  | [p0, p1] =>
    match DecodeString p0 with
    | .error e => .error e
    | .ok key =>
      match DecodeString p1 with
      | .error e => .error e
      | .ok data => .ok ⟨key, data⟩
  | _ => .error (.errorf "Cannot split string into key and value")

/-! ## strconv.Atoi (64-bit `int`) -/

/-- The digit loop of `strconv.ParseUint(s, 10, 64)`: a byte that is not a decimal
digit is `ErrSyntax`, a value above `1<<64 - 1` is `ErrRange`. -/
def parseDigits : Nat → GoString → Except GoError Nat
  | n, [] => .ok n
  | n, ch :: rest =>
    if 48 ≤ ch.val ∧ ch.val ≤ 57 then
      if 2 ^ 64 ≤ n * 10 + (ch.val - 48) then .error .outOfRange
      else parseDigits (n * 10 + (ch.val - 48)) rest
    else .error .badNumber

/-- `strconv.Atoi`: an optional sign, then at least one decimal digit, the value
within `int64`.  The fast path for short inputs computes the same result. -/
def Atoi (s : GoString) : Except GoError Int :=
  match s with
  | [] => .error .badNumber
  | c :: rest =>
    let neg : Bool := c = 45
    let digits := if c = 45 ∨ c = 43 then rest else c :: rest
    match digits with
    | [] => .error .badNumber
    | d :: ds =>
      match parseDigits 0 (d :: ds) with
      | .error e => .error e
      | .ok un =>
        if neg = false ∧ 2 ^ 63 ≤ un then .error .outOfRange
        else if neg = true ∧ 2 ^ 63 < un then .error .outOfRange
        else .ok (if neg then - (un : Int) else (un : Int))

/-! ## client.go -/

/-- A reply as redigo hands it back in an `interface{}`: nil, `int64`, `[]byte`,
`string`, `[]interface{}` or `redis.Error`. -/
inductive Reply where
  | null
  | int (n : Int)
  | bulk (b : List Byte)
  | status (s : GoString)
  | array (xs : List Reply)
  | err (msg : GoString)
  deriving Repr

/-- One argument of a command. -/
inductive Arg where
  | bytes (b : List Byte)
  | int (n : Int)
  | str (s : String)
  deriving DecidableEq, Repr

/-- A command as passed to `Do(cmd, args...)`. -/
structure Command where
  cmd : String
  args : List Arg
  deriving DecidableEq, Repr

/-- What `Do` returns: `(reply, err)`. -/
abbrev DoResult := Reply × Option GoError

/-- What `Keys` returns: `(keys, cursor, err)`. -/
abbrev KeysResult := List (List Byte) × Int × Option GoError

/-- The interface `RedisClient` over an explicit state `τ` of the connection and
the store behind it (`Close` is not modelled). -/
structure RedisClient (τ : Type) where
  Do : τ → Command → DoResult × τ
  Keys : τ → Int → Int → Outcome KeysResult × τ

/-- The type assertion `k.([]byte)`. -/
def Reply.asBytes : Reply → Option (List Byte)
  | .bulk b => some b
  | _ => none

/-- The body of `(*redigoRedisClient).Keys` after its call
`rc.Do("SCAN", cursor, "COUNT", count)` has returned `doResult`.  Indexing
`parts[0]` and `parts[1]` panics when the slice is too short. -/
def redigoRedisClient.KeysOf (doResult : DoResult) : Outcome KeysResult :=
  match doResult with
  | (_, some e) => .ret ([], 0, some e)
  | (reply, none) =>
    match reply with
    | .array parts =>
      match parts with
      | [] => .panic "index out of range [0] with length 0"
      | p0 :: more =>
        match p0 with
        | .bulk curbytes =>
          match Atoi curbytes with
          | .error e => .ret ([], 0, some e)
          | .ok updatedCursor =>
            match more with
            | [] => .panic "index out of range [1] with length 1"
            | p1 :: _ =>
              match p1 with
              | .array keys => .ret (keys.filterMap Reply.asBytes, updatedCursor, none)
              | _ => .ret ([], 0, some (.errorf "Keys was not interface\x7b\x7d array"))
        | _ => .ret ([], 0, some (.errorf "Cursor was not integer"))
    | _ => .ret ([], 0, some (.errorf "Reply did not match expected format"))

/-- The method `(*redigoRedisClient).Keys`, with `conn` the method `Do`. -/
def redigoRedisClient.Keys {τ : Type} (conn : τ → Command → DoResult × τ)
    (st : τ) (cursor count : Int) : Outcome KeysResult × τ :=
  match conn st ⟨"SCAN", [.int cursor, .str "COUNT", .int count]⟩ with
  | (doResult, st1) => (redigoRedisClient.KeysOf doResult, st1)

/-- The struct `redigoRedisClient` as a `RedisClient`. -/
def redigoRedisClient {τ : Type} (conn : τ → Command → DoResult × τ) : RedisClient τ :=
  ⟨conn, redigoRedisClient.Keys conn⟩

/-- A connection that answers successive commands with the given results in turn,
and with a transport error once they are used up. -/
def scriptedConn : List DoResult → Command → DoResult × List DoResult
  | [], _ => ((.null, some (.transport "connection closed")), [])
  | r :: rest, _ => (r, rest)

/-! ## dump.go -/

/-- What the producer loop of `Dump` has done when it returns: the value
returned, the keys sent on `d.keys` in order, and the `(cursor, count)` arguments
of its `Keys` calls in order. -/
structure DumpResult where
  counter : Nat
  pushed : List (List Byte)
  calls : List (Int × Int)
  deriving DecidableEq, Repr

/-- The `for` loop of `(*redisDumperImpl).Dump`.  `fuel` bounds the number of
iterations (the loop has no bound of its own); `none` means the loop is still
running when the fuel is used up.  A send `d.keys <- k` is recorded in `pushed`:
with the fetch workers draining the queue it completes. -/
def redisDumperImpl.Dump.loop {τ : Type} (client : RedisClient τ) :
    Nat → τ → Int → Nat → List (List Byte) → List (Int × Int) → Option (Outcome DumpResult)
  | 0, _, _, _, _, _ => none
  | fuel + 1, st, cursor, counter, pushed, calls =>
    match client.Keys st cursor 500 with
    | (.panic msg, _) => some (.panic msg)
    | (.ret (keys, c, err), st1) =>
      match err with
      | some _ => redisDumperImpl.Dump.loop client fuel st1 c counter pushed
          (calls ++ [(cursor, 500)])
      | none =>
        if c = 0 then
          some (.ret ⟨counter + keys.length, pushed ++ keys, calls ++ [(cursor, 500)]⟩)
        else
          redisDumperImpl.Dump.loop client fuel st1 c (counter + keys.length) (pushed ++ keys)
            (calls ++ [(cursor, 500)])

/-- The method `(*redisDumperImpl).Dump`: the loop from `cursor = 0`,
`counter = 0`; after the loop the queues are closed and drained and `counter` is
returned. -/
def redisDumperImpl.Dump {τ : Type} (client : RedisClient τ) (fuel : Nat) (st : τ) :
    Option (Outcome DumpResult) :=
  redisDumperImpl.Dump.loop client fuel st 0 0 [] []

/-- The method `(*redisDumperImpl).DumpKey`. -/
def redisDumperImpl.DumpKey {τ : Type} (client : RedisClient τ) (st : τ) (key : List Byte) :
    (List Byte × Option GoError) × τ :=
  match client.Do st ⟨"DUMP", [.bytes key]⟩ with
  | ((_, some e), st1) => (([], some e), st1)
  | ((reply, none), st1) =>
    match reply with
    | .bulk repbytes => ((repbytes, none), st1)
    | _ => (([], some (.errorf "Reply was not a byte array")), st1)

/-- The worker `(*redisDumperImpl).keyFetch` on the keys it receives from
`d.keys`, in the order it receives them: the `KeyData` values it sends on `d.data`. -/
def redisDumperImpl.keyFetch {τ : Type} (client : RedisClient τ) :
    τ → List (List Byte) → List KeyData × τ
  | st, [] => ([], st)
  | st, key :: rest =>
    match redisDumperImpl.DumpKey client st key with
    | ((data, _), st1) =>
      match redisDumperImpl.keyFetch client st1 rest with
      | (kds, st2) => (⟨key, data⟩ :: kds, st2)

/-- The writer `(*redisDumperImpl).dataDump` on the values it receives from
`d.data`: the bytes it writes, `EncodeKeyData(&kd) + "\n"` for each.
`EncodeKeyData` is not defined in the sources and is a parameter. -/
def redisDumperImpl.dataDump (EncodeKeyData : KeyData → GoString) : List KeyData → GoString
  | [] => []
  | kd :: rest => EncodeKeyData kd ++ [10] ++ redisDumperImpl.dataDump EncodeKeyData rest

/-- One run of the dump pipeline in which a single fetch worker takes the keys in
queue order: the count returned by `Dump` and the bytes written to the file.  The
scan and the fetches are given as two clients, each with its own state; how their
calls interleave on the one connection pool is not modelled. -/
def redisDumperImpl.run {τ σ : Type} (EncodeKeyData : KeyData → GoString)
    (scan : RedisClient σ) (fetch : RedisClient τ) (fuel : Nat) (s0 : σ) (t0 : τ) :
    Option (Outcome (Nat × GoString)) :=
  match redisDumperImpl.Dump scan fuel s0 with
  | none => none
  | some (.panic msg) => some (.panic msg)
  | some (.ret r) =>
    some (.ret (r.counter,
      redisDumperImpl.dataDump EncodeKeyData (redisDumperImpl.keyFetch fetch t0 r.pushed).1))

/-! ## Go channels -/

/-- A buffered channel: the queued values and whether `close` has been called. -/
structure Chan (α : Type) where
  buf : List α
  closed : Bool
  cap : Nat
  deriving DecidableEq, Repr

/-- The result of `v, ok := <-ch`. -/
inductive Recv (α : Type) where
  | value (v : α) (ch : Chan α)
  | closedEmpty
  | blocks
  deriving DecidableEq, Repr

/-- The receive `v, ok := <-ch`: a queued value is handed out with `ok = true`, also
after `close`; an empty closed channel gives `ok = false`; an empty open channel
blocks. -/
def Chan.recv {α : Type} (ch : Chan α) : Recv α :=
  match ch.buf with
  | v :: rest => .value v ⟨rest, ch.closed, ch.cap⟩
  | [] => if ch.closed then .closedEmpty else .blocks

/-- The call `close(ch)`: closing a closed channel panics. -/
def Chan.close {α : Type} (ch : Chan α) : Outcome (Chan α) :=
  if ch.closed then .panic "close of closed channel" else .ret ⟨ch.buf, true, ch.cap⟩

/-- The send `ch <- v`: `none` when it blocks (queue full), a panic on a closed
channel. -/
def Chan.send {α : Type} (ch : Chan α) (v : α) : Option (Outcome (Chan α)) :=
  if ch.closed then some (.panic "send on closed channel")
  else if ch.buf.length < ch.cap then some (.ret ⟨ch.buf ++ [v], false, ch.cap⟩)
  else none

/-- How a call of `Close` ends. -/
inductive CloseResult (σ : Type) where
  | returned (err : Option GoError) (st : σ)
  | blocked
  | panicked (msg : String)
  deriving DecidableEq, Repr

/-- The fields of `redisDumperImpl` that `Close` touches: the two queues, what
`d.writer.Flush()` and `d.outfile.Close()` will return, and whether `d.cancel`
has been called. -/
structure DumperState where
  keys : Chan (List Byte)
  data : Chan KeyData
  flushErr : Option GoError
  fileErr : Option GoError
  cancelled : Bool
  deriving DecidableEq, Repr

/-- The guard `if _, ok := <-ch; ok \x7b close(ch) \x7d` that `Close` applies to a queue. -/
def closeIfReceived {α : Type} (ch : Chan α) : CloseResult (Chan α) :=
  match ch.recv with
  | .blocks => .blocked
  | .closedEmpty => .returned none ch
  | .value _ ch1 =>
    match ch1.close with
    | .panic msg => .panicked msg
    | .ret ch2 => .returned none ch2

/-- The method `(*redisDumperImpl).Close`. -/
def redisDumperImpl.Close (d : DumperState) : CloseResult DumperState :=
  match closeIfReceived d.keys with
  | .blocked => .blocked
  | .panicked msg => .panicked msg
  | .returned _ keys =>
    match closeIfReceived d.data with
    | .blocked => .blocked
    | .panicked msg => .panicked msg
    | .returned _ data =>
      match d.flushErr with
      | some e => .returned (some e) ⟨keys, data, d.flushErr, d.fileErr, d.cancelled⟩
      | none =>
        match d.fileErr with
        | some e => .returned (some e) ⟨keys, data, d.flushErr, d.fileErr, d.cancelled⟩
        | none => .returned none ⟨keys, data, d.flushErr, d.fileErr, true⟩

/-! ## bufio.Reader.ReadString -/

/-- The bytes up to and including the first `delim`, and the bytes after it;
`none` when `delim` does not occur. -/
def readUntil (delim : Byte) : GoString → Option (GoString × GoString)
  | [] => none
  | c :: rest =>
    if c = delim then some ([c], rest)
    else
      match readUntil delim rest with
      | none => none
      | some (line, after) => some (c :: line, after)

/-- `(*bufio.Reader).ReadString(delim)` on a reader whose unread input is `buf`
and whose source returns no error but end of input: the data up to and including
the delimiter, or all the remaining data together with `io.EOF`. -/
def ReadString (delim : Byte) (buf : GoString) : (GoString × Option GoError) × GoString :=
  match readUntil delim buf with
  | some (line, after) => ((line, none), after)
  | none => ((buf, some .EOF), [])

/-! ## restore.go -/

/-- What the producer loop of `Restore` has done when it returns: the value
returned and the lines sent on `r.lineChan` in order. -/
structure RestoreResult where
  counter : Nat
  pushed : List GoString
  deriving DecidableEq, Repr

/-- The `for` loop of `(*redisRestorerImpl).Restore` over a reader with state `ρ`
whose `ReadString` is `read`.  `fuel` bounds the number of iterations; `none`
means the loop is still running when the fuel is used up. -/
def redisRestorerImpl.Restore.loop {ρ : Type} (read : ρ → (GoString × Option GoError) × ρ) :
    Nat → ρ → Nat → List GoString → Option RestoreResult
  | 0, _, _, _ => none
  | fuel + 1, rd, counter, pushed =>
    match read rd with
    | ((_, some .EOF), _) => some ⟨counter, pushed⟩
    | ((_, some _), rd1) => redisRestorerImpl.Restore.loop read fuel rd1 counter pushed
    | ((line, none), rd1) =>
      redisRestorerImpl.Restore.loop read fuel rd1 (counter + 1) (pushed ++ [line])

/-- The method `(*redisRestorerImpl).Restore` on a dump file with the given
content.  Every iteration but the last consumes a byte, so the fuel is never
used up. -/
def redisRestorerImpl.Restore (content : GoString) : Option RestoreResult :=
  redisRestorerImpl.Restore.loop (ReadString 10) (content.length + 1) content 0 []

/-- The method `(*redisRestorerImpl).RestoreLine`: the error returned and the
state of the client afterwards.  `DecodeKeyData` is not defined in the sources and
is a parameter. -/
def redisRestorerImpl.RestoreLine {τ : Type} (DecodeKeyData : GoString → Except GoError KeyData)
    (client : RedisClient τ) (st : τ) (line : GoString) : Option GoError × τ :=
  match DecodeKeyData line with
  | .error e => (some e, st)
  | .ok kd =>
    match client.Do st ⟨"RESTORE", [.bytes kd.key, .int 0, .bytes kd.data, .str "REPLACE"]⟩ with
    | ((_, some e), st1) => (some e, st1)
    | ((_, none), st1) => (none, st1)

/-- The worker `(*redisRestorerImpl).restoreParallel` on the lines it receives
from `r.lineChan`, in the order it receives them: the client state afterwards. -/
def redisRestorerImpl.restoreParallel {τ : Type}
    (DecodeKeyData : GoString → Except GoError KeyData) (client : RedisClient τ) :
    τ → List GoString → τ
  | st, [] => st
  | st, line :: rest =>
    redisRestorerImpl.restoreParallel DecodeKeyData client
      (redisRestorerImpl.RestoreLine DecodeKeyData client st line).2 rest

/-- One run of the restore pipeline in which a single worker takes the lines in
queue order: the count returned by `Restore` and the client state afterwards. -/
def redisRestorerImpl.run {τ : Type} (DecodeKeyData : GoString → Except GoError KeyData)
    (client : RedisClient τ) (content : GoString) (st : τ) : Option (Nat × τ) :=
  match redisRestorerImpl.Restore content with
  | none => none
  | some r => some (r.counter, redisRestorerImpl.restoreParallel DecodeKeyData client st r.pushed)

/-- The fields of `redisRestorerImpl` that `Close` touches. -/
structure RestorerState where
  lineChan : Chan GoString
  fileErr : Option GoError
  cancelled : Bool
  deriving DecidableEq, Repr

/-- The method `(*redisRestorerImpl).Close`. -/
def redisRestorerImpl.Close (r : RestorerState) : CloseResult RestorerState :=
  match closeIfReceived r.lineChan with
  | .blocked => .blocked
  | .panicked msg => .panicked msg
  | .returned _ lineChan =>
    match r.fileErr with
    | some e => .returned (some e) ⟨lineChan, r.fileErr, r.cancelled⟩
    | none => .returned none ⟨lineChan, r.fileErr, true⟩

/-! ## Clients used to state the properties -/

/-- A client that records every command passed to `Do` and answers it with
`reply cmd`. -/
def recordingClient (reply : Command → DoResult) : RedisClient (List Command) :=
  redigoRedisClient (fun log cmd => (reply cmd, log ++ [cmd]))

/-- A connection to a store: a DUMP of one key is answered with `dump key` and
leaves the state alone, every other command is answered from the script as by
`scriptedConn`. -/
def storeConn (dump : List Byte → DoResult) (script : List DoResult) (cmd : Command) :
    DoResult × List DoResult :=
  match cmd.args with
  | [.bytes key] => if cmd.cmd = "DUMP" then (dump key, script) else scriptedConn script cmd
  | _ => scriptedConn script cmd

/-! ## Notions the properties are stated with -/

/-- Whether a fetch succeeds on the given result of the DUMP command: no error and
a byte string as reply. -/
def fetchSucceeds : DoResult → Bool
  | (.bulk _, none) => true
  | _ => false

/-- The payload recorded for a key whose DUMP command had the given result: the
reply when the fetch succeeds, the empty payload when it fails. -/
def recordedPayload : DoResult → List Byte
  | (.bulk payload, none) => payload
  | _ => []

/-- The command `DUMP key`. -/
def dumpCommand (key : List Byte) : Command := ⟨"DUMP", [.bytes key]⟩

/-- The pages of a scan that never fails: from state `st` and cursor `c` the
successive `Keys` calls return the pages `ps` (keys and next cursor) without
error, the last page is the first to carry next cursor 0. -/
def ScanRun {τ : Type} (client : RedisClient τ) : τ → Int → List (List (List Byte) × Int) → Prop
  | _, _, [] => False
  | st, c, [p] => (client.Keys st c 500).1 = .ret (p.1, p.2, none) ∧ p.2 = 0
  | st, c, p :: q :: ps =>
    (client.Keys st c 500).1 = .ret (p.1, p.2, none) ∧ p.2 ≠ 0 ∧
      ScanRun client (client.Keys st c 500).2 p.2 (q :: ps)

/-- The text of a dump file whose lines have the given bodies, every line ended
by the terminator `\n`. -/
def fileOfLines (bodies : List GoString) : GoString :=
  (bodies.map (fun b => b ++ [10])).flatten

/-- The number of non-empty lines of a text: the parts between line terminators
that hold at least one byte. -/
def nonEmptyLineCount (content : GoString) : Nat :=
  ((Split content 10).filter (fun l => l ≠ [])).length

/-- Whether given pages are the pages of a scan can be computed. -/
instance ScanRun.decide {τ : Type} (client : RedisClient τ) :
    ∀ (st : τ) (c : Int) (ps : List (List (List Byte) × Int)), Decidable (ScanRun client st c ps)
  | _, _, [] => isFalse (fun h => h)
  | st, c, [p] =>
    inferInstanceAs (Decidable ((client.Keys st c 500).1 = .ret (p.1, p.2, none) ∧ p.2 = 0))
  | st, c, p :: q :: ps =>
    have := ScanRun.decide client (client.Keys st c 500).2 p.2 (q :: ps)
    inferInstanceAs (Decidable ((client.Keys st c 500).1 = .ret (p.1, p.2, none) ∧ p.2 ≠ 0 ∧
      ScanRun client (client.Keys st c 500).2 p.2 (q :: ps)))

/-- The returned value of an outcome under `f`; a panic stays a panic. -/
def Outcome.map {α β : Type} (f : α → β) : Outcome α → Outcome β
  | .ret a => .ret (f a)
  | .panic msg => .panic msg

/-- Whether a byte is one of the 64 characters of the alphabet. -/
def isAlphabet (c : Byte) : Bool := decodeMap c ≠ 0xff

/-- A text without its carriage returns and line feeds. -/
def dropNewlines : GoString → GoString
  | [] => []
  | c :: rest => if c = 10 ∨ c = 13 then dropNewlines rest else c :: dropNewlines rest

/-- Padded base64 text: groups of four alphabet characters, where the last group
may end in one or two padding characters. -/
def wellFormedBase64 : GoString → Bool
  | [] => true
  | [a, b, c, d] =>
    isAlphabet a && isAlphabet b &&
      ((isAlphabet c && (isAlphabet d || d = padChar)) || (c = padChar && d = padChar))
  | a :: b :: c :: d :: rest =>
    isAlphabet a && isAlphabet b && isAlphabet c && isAlphabet d && wellFormedBase64 rest
  | _ => false

/-- Valid base64 as the StdEncoding decoder takes it: well-formed padded base64
once carriage returns and line feeds are dropped. -/
def validBase64 (s : GoString) : Prop := wellFormedBase64 (dropNewlines s) = true

/-- Validity of a text can be computed. -/
instance validBase64.decide (s : GoString) : Decidable (validBase64 s) :=
  inferInstanceAs (Decidable (wellFormedBase64 (dropNewlines s) = true))

/-! ## Lemmas on the base64 codec -/

theorem decodeMap_encodeChar (i : Nat) (h : i < 64) : decodeMap (encodeChar i) = i := by
  have key : ∀ k : Fin 64, decodeMap (encodeChar k.val) = k.val := by decide
  exact key ⟨i, h⟩

theorem encodeChar_ne (i : Nat) (h : i < 64) :
    encodeChar i ≠ 1 ∧ encodeChar i ≠ 10 ∧ encodeChar i ≠ 13 ∧ encodeChar i ≠ padChar := by
  have key : ∀ k : Fin 64, encodeChar k.val ≠ 1 ∧ encodeChar k.val ≠ 10 ∧ encodeChar k.val ≠ 13
      ∧ encodeChar k.val ≠ padChar := by decide
  exact key ⟨i, h⟩

theorem quantumLoop_full (dbuf : List Nat) (src : GoString) :
    quantumLoop 4 dbuf src = .ok (some dbuf, src) := by
  cases src <;> simp [quantumLoop]

theorem quantumLoop_char (j : Nat) (dbuf : List Nat) (i : Nat) (rest : GoString)
    (hj : j < 4) (hi : i < 64) :
    quantumLoop j dbuf (encodeChar i :: rest) = quantumLoop (j + 1) (dbuf ++ [i]) rest := by
  have h4 : ¬ 4 ≤ j := by omega
  have hi2 : i ≠ 255 := by omega
  simp [quantumLoop, h4, decodeMap_encodeChar i hi, hi2]

theorem quantumLoop_newline (j : Nat) (dbuf : List Nat) (c : Byte) (rest : GoString)
    (hj : j < 4) (hc : c = 10 ∨ c = 13) :
    quantumLoop j dbuf (c :: rest) = quantumLoop j dbuf rest := by
  have h4 : ¬ 4 ≤ j := by omega
  have h10 : decodeMap 10 = 255 := by decide
  have h13 : decodeMap 13 = 255 := by decide
  rcases hc with rfl | rfl <;> simp [quantumLoop, h4, h10, h13]

theorem skipNewlines_all (tail : GoString) (h : ∀ c ∈ tail, c = 10 ∨ c = 13) :
    skipNewlines tail = [] := by
  induction tail with
  | nil => rfl
  | cons c rest ih =>
    have hc := h c (List.mem_cons_self _ _)
    simp [skipNewlines, hc, ih (fun d hd => h d (List.mem_cons_of_mem _ hd))]

theorem quantumLoop_newlines (tail : GoString) (h : ∀ c ∈ tail, c = 10 ∨ c = 13) :
    quantumLoop 0 [] tail = .ok (none, []) := by
  induction tail with
  | nil => simp [quantumLoop]
  | cons c rest ih =>
    rw [quantumLoop_newline 0 [] c rest (by omega) (h c (List.mem_cons_self _ _))]
    exact ih (fun d hd => h d (List.mem_cons_of_mem _ hd))

theorem quantumLoop_pad1 (v0 v1 v2 : Nat) (tail : GoString) (h : ∀ c ∈ tail, c = 10 ∨ c = 13) :
    quantumLoop 3 [v0, v1, v2] (padChar :: tail) = .ok (some [v0, v1, v2], []) := by
  have hp : decodeMap padChar = 255 := by decide
  have hp1 : ¬ (padChar = 10 ∨ padChar = 13) := by decide
  simp [quantumLoop, hp, hp1, skipNewlines_all tail h]

theorem quantumLoop_pad2 (v0 v1 : Nat) (tail : GoString) (h : ∀ c ∈ tail, c = 10 ∨ c = 13) :
    quantumLoop 2 [v0, v1] (padChar :: padChar :: tail) = .ok (some [v0, v1], []) := by
  have hp : decodeMap padChar = 255 := by decide
  have hp1 : ¬ (padChar = 10 ∨ padChar = 13) := by decide
  simp [quantumLoop, hp, hp1, skipNewlines, skipNewlines_all tail h]

theorem and63 (x : Nat) : x &&& 0x3F = x % 64 := Nat.and_pow_two_sub_one_eq_mod x 6

theorem or4 (v0 v1 v2 v3 : Nat) (h1 : v1 < 64) (h2 : v2 < 64) (h3 : v3 < 64) :
    v0 <<< 18 ||| v1 <<< 12 ||| v2 <<< 6 ||| v3 = v0 * 262144 + v1 * 4096 + v2 * 64 + v3 := by
  simp only [Nat.shiftLeft_eq]
  have e1 : v0 * 2 ^ 18 ||| v1 * 2 ^ 12 = 2 ^ 12 * (v0 * 2 ^ 6 + v1) := by
    have : v0 * 2 ^ 18 = 2 ^ 18 * v0 := by ring
    rw [this, ← Nat.mul_add_lt_is_or (by omega) v0]
    ring
  have e2 : 2 ^ 12 * (v0 * 2 ^ 6 + v1) ||| v2 * 2 ^ 6 = 2 ^ 6 * (v0 * 2 ^ 12 + v1 * 2 ^ 6 + v2) := by
    have : 2 ^ 12 * (v0 * 2 ^ 6 + v1) = 2 ^ 12 * (v0 * 2 ^ 6 + v1) := rfl
    rw [← Nat.mul_add_lt_is_or (by omega)]
    ring
  rw [e1, e2, ← Nat.mul_add_lt_is_or (by omega)]
  ring

theorem or3 (b0 b1 b2 : Nat) (h1 : b1 < 256) (h2 : b2 < 256) :
    b0 <<< 16 ||| b1 <<< 8 ||| b2 = b0 * 65536 + b1 * 256 + b2 := by
  rw [Nat.shiftLeft_eq, Nat.shiftLeft_eq]
  have e1 : b0 * 2 ^ 16 ||| b1 * 2 ^ 8 = 2 ^ 8 * (b0 * 2 ^ 8 + b1) := by
    have : b0 * 2 ^ 16 = 2 ^ 16 * b0 := by ring
    rw [this, ← Nat.mul_add_lt_is_or (by omega) b0]
    ring
  rw [e1, ← Nat.mul_add_lt_is_or (by omega)]
  ring

theorem toByte_val (b : Byte) (x : Nat) (h : x % 256 = b.val) : toByte x = b := by
  apply Fin.ext
  simp [toByte, Fin.ofNat, h]

theorem quantumBytes3 (b0 b1 b2 : Byte) :
    quantumBytes
      [(b0.val <<< 16 ||| b1.val <<< 8 ||| b2.val) >>> 18 &&& 0x3F,
       (b0.val <<< 16 ||| b1.val <<< 8 ||| b2.val) >>> 12 &&& 0x3F,
       (b0.val <<< 16 ||| b1.val <<< 8 ||| b2.val) >>> 6 &&& 0x3F,
       (b0.val <<< 16 ||| b1.val <<< 8 ||| b2.val) &&& 0x3F] = [b0, b1, b2] := by
  have h0 := b0.isLt
  have h1 := b1.isLt
  have h2 := b2.isLt
  rw [or3 _ _ _ h1 h2]
  simp only [quantumBytes, and63, Nat.shiftRight_eq_div_pow, List.getD_cons_zero, List.getD_cons_succ, List.length_cons, List.length_nil]
  rw [or4 _ _ _ _ (Nat.mod_lt _ (by norm_num)) (Nat.mod_lt _ (by norm_num)) (Nat.mod_lt _ (by norm_num))]
  simp only [List.cons.injEq, and_true, Nat.reducePow]
  have d0 : (b0.val * 65536 + b1.val * 256 + b2.val) / 262144 % 64 = b0.val / 4 := by omega
  have d1 : (b0.val * 65536 + b1.val * 256 + b2.val) / 4096 % 64
      = b0.val % 4 * 16 + b1.val / 16 := by omega
  have d2 : (b0.val * 65536 + b1.val * 256 + b2.val) / 64 % 64
      = b1.val % 16 * 4 + b2.val / 64 := by omega
  have d3 : (b0.val * 65536 + b1.val * 256 + b2.val) % 64 = b2.val % 64 := by omega
  rw [d0, d1, d2, d3]
  clear d0 d1 d2 d3
  refine ⟨toByte_val _ _ ?_, toByte_val _ _ ?_, toByte_val _ _ ?_⟩ <;> omega

theorem or2 (b0 b1 : Nat) (h1 : b1 < 256) :
    b0 <<< 16 ||| b1 <<< 8 = b0 * 65536 + b1 * 256 := by
  rw [Nat.shiftLeft_eq, Nat.shiftLeft_eq]
  have : b0 * 2 ^ 16 = 2 ^ 16 * b0 := by ring
  rw [this, ← Nat.mul_add_lt_is_or (by omega) b0]
  ring

theorem quantumBytes2 (b0 b1 : Byte) :
    quantumBytes
      [(b0.val <<< 16 ||| b1.val <<< 8) >>> 18 &&& 0x3F,
       (b0.val <<< 16 ||| b1.val <<< 8) >>> 12 &&& 0x3F,
       (b0.val <<< 16 ||| b1.val <<< 8) >>> 6 &&& 0x3F] = [b0, b1] := by
  have h0 := b0.isLt
  have h1 := b1.isLt
  rw [or2 _ _ h1]
  simp only [quantumBytes, and63, Nat.shiftRight_eq_div_pow, List.getD_cons_zero,
    List.getD_cons_succ, List.length_cons, List.length_nil, List.getD_nil]
  rw [or4 _ _ _ _ (Nat.mod_lt _ (by norm_num)) (Nat.mod_lt _ (by norm_num)) (by norm_num)]
  simp only [List.cons.injEq, and_true, Nat.reducePow]
  have d0 : (b0.val * 65536 + b1.val * 256) / 262144 % 64 = b0.val / 4 := by omega
  have d1 : (b0.val * 65536 + b1.val * 256) / 4096 % 64 = b0.val % 4 * 16 + b1.val / 16 := by
    omega
  have d2 : (b0.val * 65536 + b1.val * 256) / 64 % 64 = b1.val % 16 * 4 := by omega
  rw [d0, d1, d2]
  clear d0 d1 d2
  refine ⟨toByte_val _ _ ?_, toByte_val _ _ ?_⟩ <;> omega

theorem quantumBytes1 (b0 : Byte) :
    quantumBytes [(b0.val <<< 16) >>> 18 &&& 0x3F, (b0.val <<< 16) >>> 12 &&& 0x3F] = [b0] := by
  have h0 := b0.isLt
  have e : b0.val <<< 16 = b0.val * 65536 := by rw [Nat.shiftLeft_eq]
  rw [e]
  simp only [quantumBytes, and63, Nat.shiftRight_eq_div_pow,
    List.getD_cons_zero, List.getD_cons_succ, List.length_cons, List.length_nil, List.getD_nil]
  rw [or4 _ _ _ _ (Nat.mod_lt _ (by norm_num)) (by norm_num) (by norm_num)]
  simp only [List.cons.injEq, and_true, Nat.reducePow]
  have d0 : b0.val * 65536 / 262144 % 64 = b0.val / 4 := by omega
  have d1 : b0.val * 65536 / 4096 % 64 = b0.val % 4 * 16 := by omega
  rw [d0, d1]
  clear d0 d1
  refine toByte_val _ _ ?_
  omega

theorem sextet_lt (x : Nat) : x &&& 0x3F < 64 := by
  rw [and63]
  omega

theorem decodeLoop_encode (x : List Byte) :
    ∀ (tail : GoString) (fuel : Nat), (∀ c ∈ tail, c = 10 ∨ c = 13) →
      (EncodeToString x ++ tail).length ≤ fuel →
      decodeLoop fuel (EncodeToString x ++ tail) = .ok x := by
  induction x using EncodeToString.induct with
  | case1 b0 b1 b2 rest ih =>
    intro tail fuel htail hfuel
    simp only [EncodeToString, List.cons_append, List.length_cons] at hfuel ⊢
    obtain ⟨f, rfl⟩ : ∃ f, fuel = f + 1 := ⟨fuel - 1, by omega⟩
    simp only [decodeLoop, decodeQuantum]
    rw [quantumLoop_char 0 _ _ _ (by omega) (sextet_lt _),
      quantumLoop_char 1 _ _ _ (by omega) (sextet_lt _),
      quantumLoop_char 2 _ _ _ (by omega) (sextet_lt _),
      quantumLoop_char 3 _ _ _ (by omega) (sextet_lt _), quantumLoop_full]
    simp only [List.nil_append, List.cons_append]
    rw [quantumBytes3, ih tail f htail (by omega)]
    rfl
  | case2 b0 b1 =>
    intro tail fuel htail hfuel
    simp only [EncodeToString, List.cons_append, List.length_cons] at hfuel ⊢
    obtain ⟨f, rfl⟩ : ∃ f, fuel = f + 1 := ⟨fuel - 1, by omega⟩
    simp only [decodeLoop, decodeQuantum]
    rw [quantumLoop_char 0 _ _ _ (by omega) (sextet_lt _),
      quantumLoop_char 1 _ _ _ (by omega) (sextet_lt _),
      quantumLoop_char 2 _ _ _ (by omega) (sextet_lt _)]
    simp only [List.nil_append, List.cons_append]
    rw [quantumLoop_pad1 _ _ _ tail htail]
    simp only [decodeLoop]
    rw [quantumBytes2]
    rfl
  | case3 b0 =>
    intro tail fuel htail hfuel
    simp only [EncodeToString, List.cons_append, List.length_cons] at hfuel ⊢
    obtain ⟨f, rfl⟩ : ∃ f, fuel = f + 1 := ⟨fuel - 1, by omega⟩
    simp only [decodeLoop, decodeQuantum]
    rw [quantumLoop_char 0 _ _ _ (by omega) (sextet_lt _),
      quantumLoop_char 1 _ _ _ (by omega) (sextet_lt _)]
    simp only [List.nil_append, List.cons_append]
    rw [quantumLoop_pad2 _ _ tail htail]
    simp only [decodeLoop]
    rw [quantumBytes1]
    rfl
  | case4 =>
    intro tail fuel htail hfuel
    simp only [EncodeToString, List.nil_append] at hfuel ⊢
    cases tail with
    | nil => cases fuel <;> rfl
    | cons c rest =>
      obtain ⟨f, rfl⟩ : ∃ f, fuel = f + 1 := ⟨fuel - 1, by simp at hfuel; omega⟩
      simp only [decodeLoop, decodeQuantum]
      rw [quantumLoop_newlines _ htail]
      simp [decodeLoop]

/-! ## Lemmas on Split -/

theorem Split_ne_nil (s : GoString) (sep : Byte) : Split s sep ≠ [] := by
  induction s with
  | nil => simp [Split]
  | cons c rest ih =>
    unfold Split
    split
    · simp
    · split <;> simp

theorem Split_no_sep (s : GoString) (sep : Byte) (h : sep ∉ s) : Split s sep = [s] := by
  induction s with
  | nil => rfl
  | cons c rest ih =>
    have hc : c ≠ sep := fun e => h (by simp [e])
    have hr : sep ∉ rest := fun e => h (List.mem_cons_of_mem _ e)
    simp [Split, hc, ih hr]

theorem Split_append (a b : GoString) (sep : Byte) (h : sep ∉ a) :
    Split (a ++ sep :: b) sep = a :: Split b sep := by
  induction a with
  | nil => simp [Split]
  | cons c rest ih =>
    have hc : c ≠ sep := fun e => h (by simp [e])
    have hr : sep ∉ rest := fun e => h (List.mem_cons_of_mem _ e)
    simp [Split, hc, ih hr]

theorem Split_single (s p : GoString) (sep : Byte) (h : Split s sep = [p]) :
    s = p ∧ sep ∉ p := by
  induction s generalizing p with
  | nil =>
    simp [Split] at h
    subst h
    simp
  | cons c rest ih =>
    unfold Split at h
    split at h
    · have := Split_ne_nil rest sep
      simp at h
      exact absurd h.2 this
    · rename_i hc
      split at h
      · rename_i hnil
        exact absurd hnil (Split_ne_nil rest sep)
      · rename_i part parts hsp
        simp at h
        obtain ⟨h1, h2⟩ := h
        subst h1 h2
        obtain ⟨e1, e2⟩ := ih part hsp
        subst e1
        refine ⟨rfl, ?_⟩
        intro hm
        rcases List.mem_cons.1 hm with e | e
        · exact hc e.symm
        · exact e2 e

theorem Split_pair (s p0 p1 : GoString) (sep : Byte) (h : Split s sep = [p0, p1]) :
    s = p0 ++ [sep] ++ p1 ∧ sep ∉ p0 ∧ sep ∉ p1 := by
  induction s generalizing p0 with
  | nil => simp [Split] at h
  | cons c rest ih =>
    unfold Split at h
    split at h
    · rename_i hc
      simp at h
      obtain ⟨h1, h2⟩ := h
      subst h1
      obtain ⟨e1, e2⟩ := Split_single rest p1 sep h2
      subst e1 hc
      simp [e2]
    · rename_i hc
      split at h
      · rename_i hnil
        exact absurd hnil (Split_ne_nil rest sep)
      · rename_i part parts hsp
        simp at h
        obtain ⟨h1, h2⟩ := h
        subst h1 h2
        obtain ⟨e1, e2, e3⟩ := ih part hsp
        refine ⟨by simp [e1], ?_, e3⟩
        intro hm
        rcases List.mem_cons.1 hm with e | e
        · exact hc e.symm
        · exact e2 e

theorem EncodeToString_chars (x : List Byte) :
    ∀ c ∈ EncodeToString x, c ≠ 1 ∧ c ≠ 10 ∧ c ≠ 13 := by
  have hp : padChar ≠ 1 ∧ padChar ≠ 10 ∧ padChar ≠ 13 := by decide
  have he : ∀ v : Nat, encodeChar (v &&& 0x3F) ≠ 1 ∧ encodeChar (v &&& 0x3F) ≠ 10
      ∧ encodeChar (v &&& 0x3F) ≠ 13 := fun v =>
    ⟨(encodeChar_ne _ (sextet_lt v)).1, (encodeChar_ne _ (sextet_lt v)).2.1,
      (encodeChar_ne _ (sextet_lt v)).2.2.1⟩
  induction x using EncodeToString.induct with
  | case1 b0 b1 b2 rest ih =>
    intro c hc
    simp only [EncodeToString, List.mem_cons] at hc
    rcases hc with rfl | rfl | rfl | rfl | hc
    · exact he _
    · exact he _
    · exact he _
    · exact he _
    · exact ih c hc
  | case2 b0 b1 =>
    intro c hc
    simp only [EncodeToString, List.mem_cons, List.not_mem_nil, or_false] at hc
    rcases hc with rfl | rfl | rfl | rfl
    · exact he _
    · exact he _
    · exact he _
    · exact hp
  | case3 b0 =>
    intro c hc
    simp only [EncodeToString, List.mem_cons, List.not_mem_nil, or_false] at hc
    rcases hc with rfl | rfl | rfl | rfl
    · exact he _
    · exact he _
    · exact hp
    · exact hp
  | case4 =>
    intro c hc
    simp [EncodeToString] at hc

theorem DecodeString_EncodeToString (x : List Byte) :
    DecodeString (EncodeToString x) = .ok x := by
  have := decodeLoop_encode x [] (EncodeToString x).length (by simp) (by simp)
  simpa [DecodeString] using this

theorem DecodeString_EncodeToString_newline (x : List Byte) :
    DecodeString (EncodeToString x ++ [10]) = .ok x := by
  unfold DecodeString
  exact decodeLoop_encode x [10] _ (by simp) (le_refl _)

/-- C1. Codec round trip: for every key `k` and value `v`, of any length and with
any byte values, `Decode (Encode ⟨k, v⟩)` returns no error and the pair `⟨k, v⟩`. -/
theorem codec_round_trip (k v : List Byte) : Decode (Encode ⟨k, v⟩) = .ok ⟨k, v⟩ := by
  have hk : SEPARATOR ∉ EncodeToString k := fun h => (EncodeToString_chars k _ h).1 rfl
  have hv : SEPARATOR ∉ EncodeToString v := fun h => (EncodeToString_chars v _ h).1 rfl
  have hs : Split (Encode ⟨k, v⟩) SEPARATOR = [EncodeToString k, EncodeToString v] := by
    unfold Encode
    rw [List.append_assoc, List.singleton_append, Split_append _ _ _ hk, Split_no_sep _ _ hv]
  unfold Decode
  rw [hs]
  simp only [DecodeString_EncodeToString]

/-! ## The fuel of `decodeLoop` is never used up -/

theorem skipNewlines_length (s : GoString) : (skipNewlines s).length ≤ s.length := by
  induction s with
  | nil => simp [skipNewlines]
  | cons c rest ih =>
    unfold skipNewlines
    split
    · simp only [List.length_cons]; omega
    · simp

theorem quantumLoop_rest (src : GoString) :
    ∀ (j : Nat) (dbuf : List Nat) (r : Option (List Nat)) (rest : GoString),
      quantumLoop j dbuf src = .ok (r, rest) →
      rest.length ≤ src.length ∧ (j < 4 → src ≠ [] → rest.length < src.length) := by
  induction src with
  | nil =>
    intro j dbuf r rest h
    unfold quantumLoop at h
    split at h
    · simp at h; simp [h.2]
    · split at h
      · simp at h; simp [← h.2]
      · simp at h
  | cons c tl ih =>
    intro j dbuf r rest h
    unfold quantumLoop at h
    split at h
    · rename_i h4
      simp at h
      rw [← h.2]
      exact ⟨le_refl _, fun hj => by omega⟩
    · simp only at h
      split at h
      · have := ih _ _ _ _ h
        simp only [List.length_cons]
        exact ⟨by omega, fun _ _ => by omega⟩
      · split at h
        · have := ih _ _ _ _ h
          simp only [List.length_cons]
          exact ⟨by omega, fun _ _ => by omega⟩
        · split at h
          · simp at h
          · split at h
            · simp at h
            · simp at h
            · split at h
              · simp at h
              · split at h
                · simp at h
                · split at h
                  · simp at h
                    rw [h.2]
                    simp
                  · simp at h
            · split at h
              · simp at h
                rw [h.2]
                simp
              · simp at h

theorem decodeQuantum_rest (c : Byte) (tl : GoString) (out : List Byte) (rest : GoString)
    (h : decodeQuantum (c :: tl) = .ok (out, rest)) : rest.length ≤ tl.length := by
  unfold decodeQuantum at h
  split at h
  · simp at h
  · rename_i rest2 hq
    simp at h
    have := (quantumLoop_rest _ _ _ _ _ hq).2 (by omega) (by simp)
    simp only [List.length_cons] at this
    rw [← h.2]
    omega
  · rename_i dbuf rest2 hq
    simp at h
    have := (quantumLoop_rest _ _ _ _ _ hq).2 (by omega) (by simp)
    simp only [List.length_cons] at this
    rw [← h.2]
    omega

theorem decodeLoop_fuel (fuel1 : Nat) :
    ∀ (fuel2 : Nat) (s : GoString), s.length ≤ fuel1 → s.length ≤ fuel2 →
      decodeLoop fuel1 s = decodeLoop fuel2 s := by
  induction fuel1 with
  | zero =>
    intro fuel2 s h1 h2
    have : s = [] := List.length_eq_zero.1 (by omega)
    subst this
    cases fuel2 <;> rfl
  | succ f ih =>
    intro fuel2 s h1 h2
    cases s with
    | nil => cases fuel2 <;> rfl
    | cons c tl =>
      obtain ⟨g, rfl⟩ : ∃ g, fuel2 = g + 1 := ⟨fuel2 - 1, by simp at h2; omega⟩
      simp only [List.length_cons] at h1 h2
      simp only [decodeLoop]
      cases hq : decodeQuantum (c :: tl) with
      | error e => rfl
      | ok p =>
        obtain ⟨out, rest⟩ := p
        have hl := decodeQuantum_rest c tl out rest hq
        simp only
        rw [ih g rest (by omega) (by omega)]


/-! ## What the base64 decoder accepts -/

theorem dropNewlines_cons_newline (c : Byte) (tl : GoString) (h : c = 10 ∨ c = 13) :
    dropNewlines (c :: tl) = dropNewlines tl := by
  simp [dropNewlines, h]

theorem dropNewlines_cons_other (c : Byte) (tl : GoString) (h : ¬ (c = 10 ∨ c = 13)) :
    dropNewlines (c :: tl) = c :: dropNewlines tl := by
  simp [dropNewlines, h]

theorem dropNewlines_skipNewlines (s : GoString) :
    dropNewlines (skipNewlines s) = dropNewlines s := by
  induction s with
  | nil => rfl
  | cons c tl ih =>
    unfold skipNewlines
    split
    · rename_i h
      rw [ih, dropNewlines_cons_newline c tl h]
    · rfl

theorem skipNewlines_cases (s : GoString) :
    (skipNewlines s = [] ∧ dropNewlines s = []) ∨
    (∃ c r, skipNewlines s = c :: r ∧ ¬ (c = 10 ∨ c = 13) ∧
      dropNewlines s = c :: dropNewlines r) := by
  induction s with
  | nil => left; exact ⟨rfl, rfl⟩
  | cons c tl ih =>
    by_cases h : c = 10 ∨ c = 13
    · rw [dropNewlines_cons_newline c tl h]
      have : skipNewlines (c :: tl) = skipNewlines tl := by simp [skipNewlines, h]
      rw [this]
      exact ih
    · right
      refine ⟨c, tl, by simp [skipNewlines, h], h, dropNewlines_cons_other c tl h⟩

theorem skipNewlines_dropNewlines (s : GoString) :
    skipNewlines (dropNewlines s) = dropNewlines s := by
  induction s with
  | nil => rfl
  | cons c tl ih =>
    by_cases h : c = 10 ∨ c = 13
    · rw [dropNewlines_cons_newline c tl h, ih]
    · rw [dropNewlines_cons_other c tl h]
      simp [skipNewlines, h]

/-- The decoder's quantum loop reads a text as it reads the text without its
newlines. -/
theorem quantumLoop_dropNewlines (s : GoString) :
    ∀ (j : Nat) (dbuf : List Nat),
      quantumLoop j dbuf (dropNewlines s)
        = match quantumLoop j dbuf s with
          | .error e => .error e
          | .ok (r, rest) => .ok (r, dropNewlines rest) := by
  induction s with
  | nil =>
    intro j dbuf
    simp only [dropNewlines, quantumLoop]
    split <;> [rfl; (split <;> rfl)]
  | cons c tl ih =>
    intro j dbuf
    by_cases h4 : 4 ≤ j
    · cases hd : dropNewlines (c :: tl) with
      | nil => simp [quantumLoop, h4, hd]
      | cons c2 tl2 => simp [quantumLoop, h4, hd]
    · by_cases hn : c = 10 ∨ c = 13
      · rw [dropNewlines_cons_newline c tl hn, quantumLoop_newline j dbuf c tl (by omega) hn]
        exact ih j dbuf
      · rw [dropNewlines_cons_other c tl hn]
        unfold quantumLoop
        simp only [h4, if_false, hn]
        split
        · exact ih _ _
        · split
          · rfl
          · split
            · rfl
            · rfl
            · rw [skipNewlines_dropNewlines]
              rcases skipNewlines_cases tl with ⟨e1, e2⟩ | ⟨c2, r2, e1, e2, e3⟩
              · rw [e1, e2]
              · rw [e1, e3]
                simp only
                split
                · rfl
                · rw [skipNewlines_dropNewlines]
                  rcases skipNewlines_cases r2 with ⟨f1, f2⟩ | ⟨c3, r3, f1, f2, f3⟩
                  · rw [f1, f2]
                    rfl
                  · rw [f1, f3]
            · rw [skipNewlines_dropNewlines]
              rcases skipNewlines_cases tl with ⟨e1, e2⟩ | ⟨c2, r2, e1, e2, e3⟩
              · rw [e1, e2]
                rfl
              · rw [e1, e3]

theorem decodeQuantum_dropNewlines (s : GoString) :
    decodeQuantum (dropNewlines s)
      = match decodeQuantum s with
        | .error e => .error e
        | .ok (out, rest) => .ok (out, dropNewlines rest) := by
  unfold decodeQuantum
  rw [quantumLoop_dropNewlines]
  rcases quantumLoop 0 [] s with e | ⟨r, rest⟩
  · rfl
  · cases r <;> rfl

theorem dropNewlines_length (s : GoString) : (dropNewlines s).length ≤ s.length := by
  induction s with
  | nil => simp [dropNewlines]
  | cons c tl ih =>
    unfold dropNewlines
    split <;> simp only [List.length_cons] <;> omega

/-- The decoder ignores carriage returns and line feeds. -/
theorem decodeLoop_dropNewlines (fuel : Nat) :
    ∀ (s : GoString) (fuel2 : Nat), s.length ≤ fuel → (dropNewlines s).length ≤ fuel2 →
      decodeLoop fuel2 (dropNewlines s) = decodeLoop fuel s := by
  induction fuel with
  | zero =>
    intro s fuel2 h1 h2
    have : s = [] := List.length_eq_zero.1 (by omega)
    subst this
    cases fuel2 <;> rfl
  | succ f ih =>
    intro s fuel2 h1 h2
    cases s with
    | nil => cases fuel2 <;> rfl
    | cons c tl =>
      have hq := decodeQuantum_dropNewlines (c :: tl)
      simp only [List.length_cons] at h1
      cases hd : dropNewlines (c :: tl) with
      | nil =>
        rw [hd] at hq
        have e0 : decodeQuantum ([] : GoString) = .ok ([], []) := by
          simp [decodeQuantum, quantumLoop]
        rw [e0] at hq
        cases hs : decodeQuantum (c :: tl) with
        | error e => rw [hs] at hq; simp at hq
        | ok p =>
          obtain ⟨out, rest⟩ := p
          rw [hs] at hq
          simp at hq
          have hl := decodeQuantum_rest c tl out rest hs
          have := ih rest 0 (by omega) (by rw [hq.2]; simp)
          rw [hq.2] at this
          simp only [decodeLoop, hs]
          rw [← this, hq.1]
          cases fuel2 <;> rfl
      | cons c2 tl2 =>
        rw [hd] at hq h2
        obtain ⟨g, rfl⟩ : ∃ g, fuel2 = g + 1 := ⟨fuel2 - 1, by simp at h2; omega⟩
        simp only [List.length_cons] at h2
        simp only [decodeLoop]
        rw [hq]
        cases hs : decodeQuantum (c :: tl) with
        | error e => rfl
        | ok p =>
          obtain ⟨out, rest⟩ := p
          rw [hs] at hq
          have hl := decodeQuantum_rest c tl out rest hs
          have hl2 := decodeQuantum_rest c2 tl2 out (dropNewlines rest) hq
          simp only
          rw [ih rest g (by omega) (by omega)]

theorem DecodeString_dropNewlines (s : GoString) :
    DecodeString (dropNewlines s) = DecodeString s := by
  unfold DecodeString
  exact decodeLoop_dropNewlines s.length s _ (le_refl _) (le_refl _)

theorem dropNewlines_free (s : GoString) : ∀ c ∈ dropNewlines s, ¬ (c = 10 ∨ c = 13) := by
  induction s with
  | nil => intro c hc; simp [dropNewlines] at hc
  | cons a tl ih =>
    intro c hc
    unfold dropNewlines at hc
    split at hc
    · exact ih c hc
    · rename_i ha
      rcases List.mem_cons.1 hc with e | e
      · rw [e]; exact ha
      · exact ih c e

theorem skipNewlines_free (c : Byte) (tl : GoString) (h : ¬ (c = 10 ∨ c = 13)) :
    skipNewlines (c :: tl) = c :: tl := by
  simp [skipNewlines, h]

theorem quantumLoop_alphabet (j : Nat) (dbuf : List Nat) (c : Byte) (rest : GoString)
    (hj : j < 4) (hc : decodeMap c ≠ 255) :
    quantumLoop j dbuf (c :: rest) = quantumLoop (j + 1) (dbuf ++ [decodeMap c]) rest := by
  have h4 : ¬ 4 ≤ j := by omega
  simp [quantumLoop, h4, hc]

theorem quantumLoop_other (j : Nat) (dbuf : List Nat) (c : Byte) (rest : GoString)
    (hj : j < 4) (hc : decodeMap c = 255) (hn : ¬ (c = 10 ∨ c = 13)) (hp : c ≠ padChar) :
    quantumLoop j dbuf (c :: rest) = .error .corruptInput := by
  have h4 : ¬ 4 ≤ j := by omega
  simp [quantumLoop, h4, hc, hn, hp]

theorem quantumLoop_pad_early (j : Nat) (dbuf : List Nat) (rest : GoString) (hj : j < 2) :
    quantumLoop j dbuf (padChar :: rest) = .error .corruptInput := by
  have hp : decodeMap padChar = 255 := by decide
  have hn : ¬ (padChar = 10 ∨ padChar = 13) := by decide
  have hj2 : j = 0 ∨ j = 1 := by omega
  rcases hj2 with rfl | rfl <;> simp [quantumLoop, hp, hn]

theorem quantumLoop_pad_two (dbuf : List Nat) (rest : GoString) :
    quantumLoop 2 dbuf (padChar :: rest)
      = match skipNewlines rest with
        | [] => .error .corruptInput
        | c2 :: rest2 =>
          if c2 ≠ padChar then .error .corruptInput
          else
            match skipNewlines rest2 with
            | [] => .ok (some dbuf, [])
            | _ :: _ => .error .corruptInput := by
  have hp : decodeMap padChar = 255 := by decide
  have hn : ¬ (padChar = 10 ∨ padChar = 13) := by decide
  simp [quantumLoop, hp, hn]

theorem quantumLoop_pad_three (dbuf : List Nat) (rest : GoString) :
    quantumLoop 3 dbuf (padChar :: rest)
      = match skipNewlines rest with
        | [] => .ok (some dbuf, [])
        | _ :: _ => .error .corruptInput := by
  have hp : decodeMap padChar = 255 := by decide
  have hn : ¬ (padChar = 10 ∨ padChar = 13) := by decide
  simp [quantumLoop, hp, hn]

theorem quantumLoop_end (j : Nat) (dbuf : List Nat) (h0 : 0 < j) (h4 : j < 4) :
    quantumLoop j dbuf [] = .error .corruptInput := by
  have h4 : ¬ 4 ≤ j := by omega
  have h0 : j ≠ 0 := by omega
  simp [quantumLoop, h4, h0]

/-- Fewer than four characters left for the quantum: an error. -/
theorem quantumLoop_short (t : GoString) :
    ∀ (j : Nat) (dbuf : List Nat), (∀ c ∈ t, ¬ (c = 10 ∨ c = 13)) → j + t.length < 4 →
      (0 < j ∨ t ≠ []) → quantumLoop j dbuf t = .error .corruptInput := by
  induction t with
  | nil =>
    intro j dbuf _ hj hne
    have : 0 < j := by rcases hne with h | h; exact h; exact absurd rfl h
    exact quantumLoop_end j dbuf this (by simp at hj; omega)
  | cons c tl ih =>
    intro j dbuf hfree hj _
    simp only [List.length_cons] at hj
    have hc := hfree c (List.mem_cons_self _ _)
    by_cases h1 : decodeMap c = 255
    · by_cases h2 : c = padChar
      · subst h2
        by_cases hj2 : j < 2
        · exact quantumLoop_pad_early j dbuf tl hj2
        · have hj3 : j = 2 := by omega
          have : tl = [] := List.length_eq_zero.1 (by omega)
          subst hj3 this
          rw [quantumLoop_pad_two]
          rfl
      · exact quantumLoop_other j dbuf c tl (by omega) h1 hc h2
    · rw [quantumLoop_alphabet j dbuf c tl (by omega) h1]
      exact ih _ _ (fun d hd => hfree d (List.mem_cons_of_mem _ hd)) (by omega)
        (Or.inl (by omega))

theorem wellFormedBase64_short (t : GoString) (h : t.length < 4) (hne : t ≠ []) :
    wellFormedBase64 t = false := by
  match t, h, hne with
  | [a], _, _ => rfl
  | [a, b], _, _ => rfl
  | [a, b, c], _, _ => rfl

/-- The quantum loop on four characters that are not newlines. -/
theorem quantumLoop_four (a b c d : Byte) (rest : GoString)
    (ha : ¬ (a = 10 ∨ a = 13)) (hb : ¬ (b = 10 ∨ b = 13)) (hc : ¬ (c = 10 ∨ c = 13))
    (hd : ¬ (d = 10 ∨ d = 13)) (hrest : ∀ x ∈ rest, ¬ (x = 10 ∨ x = 13)) :
    quantumLoop 0 [] (a :: b :: c :: d :: rest)
      = if isAlphabet a && isAlphabet b then
          if isAlphabet c then
            if isAlphabet d then
              .ok (some [decodeMap a, decodeMap b, decodeMap c, decodeMap d], rest)
            else if d = padChar ∧ rest = [] then
              .ok (some [decodeMap a, decodeMap b, decodeMap c], [])
            else .error .corruptInput
          else if c = padChar ∧ d = padChar ∧ rest = [] then
            .ok (some [decodeMap a, decodeMap b], [])
          else .error .corruptInput
        else .error .corruptInput := by
  have hrs : rest = [] ∨ ∃ e r, rest = e :: r ∧ skipNewlines rest = e :: r := by
    cases rest with
    | nil => exact Or.inl rfl
    | cons e r =>
      exact Or.inr ⟨e, r, rfl, skipNewlines_free e r (hrest e (List.mem_cons_self _ _))⟩
  by_cases a1 : decodeMap a = 255
  · have e : quantumLoop 0 [] (a :: b :: c :: d :: rest) = .error .corruptInput := by
      by_cases a2 : a = padChar
      · subst a2; exact quantumLoop_pad_early 0 _ _ (by omega)
      · exact quantumLoop_other 0 _ a _ (by omega) a1 ha a2
    rw [e]
    simp [isAlphabet, a1]
  · rw [quantumLoop_alphabet 0 _ a _ (by omega) a1]
    by_cases b1 : decodeMap b = 255
    · have e : quantumLoop 1 ([] ++ [decodeMap a]) (b :: c :: d :: rest)
          = .error .corruptInput := by
        by_cases b2 : b = padChar
        · subst b2; exact quantumLoop_pad_early 1 _ _ (by omega)
        · exact quantumLoop_other 1 _ b _ (by omega) b1 hb b2
      rw [e]
      simp [isAlphabet, b1]
    · rw [quantumLoop_alphabet 1 _ b _ (by omega) b1]
      by_cases c1 : decodeMap c = 255
      · by_cases c2 : c = padChar
        · subst c2
          rw [quantumLoop_pad_two, skipNewlines_free d rest hd]
          by_cases d2 : d = padChar
          · rcases hrs with rfl | ⟨e, r, rfl, hs⟩
            · simp [isAlphabet, a1, b1, c1, d2, skipNewlines]
            · simp [isAlphabet, a1, b1, c1, d2, hs]
          · simp [isAlphabet, a1, b1, c1, d2]
        · rw [quantumLoop_other 2 _ c _ (by omega) c1 hc c2]
          simp [isAlphabet, a1, b1, c1, c2]
      · rw [quantumLoop_alphabet 2 _ c _ (by omega) c1]
        by_cases d1 : decodeMap d = 255
        · by_cases d2 : d = padChar
          · subst d2
            rw [quantumLoop_pad_three]
            rcases hrs with rfl | ⟨e, r, rfl, hs⟩
            · simp [isAlphabet, a1, b1, c1, d1, skipNewlines]
            · simp [isAlphabet, a1, b1, c1, d1, hs]
          · rw [quantumLoop_other 3 _ d _ (by omega) d1 hd d2]
            simp [isAlphabet, a1, b1, c1, d1, d2]
        · rw [quantumLoop_alphabet 3 _ d _ (by omega) d1, quantumLoop_full]
          simp [isAlphabet, a1, b1, c1, d1]

theorem decodeLoop_ok_of_quantum (fuel : Nat) (c : Byte) (tl : GoString) (dbuf : List Nat)
    (rest : GoString) (h : quantumLoop 0 [] (c :: tl) = .ok (some dbuf, rest)) :
    (∃ x, decodeLoop (fuel + 1) (c :: tl) = .ok x) ↔ ∃ x, decodeLoop fuel rest = .ok x := by
  simp only [decodeLoop, decodeQuantum, h]
  cases decodeLoop fuel rest with
  | error e => simp
  | ok more => simp

theorem decodeLoop_error_of_quantum (fuel : Nat) (c : Byte) (tl : GoString)
    (h : quantumLoop 0 [] (c :: tl) = .error .corruptInput) :
    ¬ ∃ x, decodeLoop (fuel + 1) (c :: tl) = .ok x := by
  simp [decodeLoop, decodeQuantum, h]

theorem padChar_not_alphabet : isAlphabet padChar = false := by decide

/-- On a text without newlines the decoder succeeds exactly on well-formed
padded base64. -/
theorem decodeLoop_ok_iff (n : Nat) :
    ∀ (t : GoString) (fuel : Nat), t.length ≤ n → t.length ≤ fuel →
      (∀ c ∈ t, ¬ (c = 10 ∨ c = 13)) →
      ((∃ x, decodeLoop fuel t = .ok x) ↔ wellFormedBase64 t = true) := by
  induction n with
  | zero =>
    intro t fuel h1 _ _
    have : t = [] := List.length_eq_zero.1 (by omega)
    subst this
    cases fuel <;> simp [decodeLoop, wellFormedBase64]
  | succ m ih =>
    intro t fuel h1 h2 hfree
    match t, h1, h2, hfree with
    | [], _, _, _ => cases fuel <;> simp [decodeLoop, wellFormedBase64]
    | [a], _, h2, hfree =>
      obtain ⟨f, rfl⟩ : ∃ f, fuel = f + 1 := ⟨fuel - 1, by simp at h2; omega⟩
      have := decodeLoop_error_of_quantum f a []
        (quantumLoop_short _ 0 [] hfree (by simp) (Or.inr (by simp)))
      simpa [wellFormedBase64] using this
    | [a, b], _, h2, hfree =>
      obtain ⟨f, rfl⟩ : ∃ f, fuel = f + 1 := ⟨fuel - 1, by simp at h2; omega⟩
      have := decodeLoop_error_of_quantum f a [b]
        (quantumLoop_short _ 0 [] hfree (by simp) (Or.inr (by simp)))
      simpa [wellFormedBase64] using this
    | [a, b, c], _, h2, hfree =>
      obtain ⟨f, rfl⟩ : ∃ f, fuel = f + 1 := ⟨fuel - 1, by simp at h2; omega⟩
      have := decodeLoop_error_of_quantum f a [b, c]
        (quantumLoop_short _ 0 [] hfree (by simp) (Or.inr (by simp)))
      simpa [wellFormedBase64] using this
    | a :: b :: c :: d :: rest, h1, h2, hfree =>
      obtain ⟨f, rfl⟩ : ∃ f, fuel = f + 1 := ⟨fuel - 1, by simp at h2; omega⟩
      have ha := hfree a (by simp)
      have hb := hfree b (by simp)
      have hc := hfree c (by simp)
      have hd := hfree d (by simp)
      have hrest : ∀ x ∈ rest, ¬ (x = 10 ∨ x = 13) := fun x hx => hfree x (by simp [hx])
      have hq := quantumLoop_four a b c d rest ha hb hc hd hrest
      simp only [List.length_cons] at h1 h2
      have hih := ih rest f (by omega) (by omega) hrest
      by_cases hab : (isAlphabet a && isAlphabet b) = true
      · obtain ⟨a1, b1⟩ : isAlphabet a = true ∧ isAlphabet b = true := by simpa using hab
        by_cases c1 : isAlphabet c = true
        · by_cases d1 : isAlphabet d = true
          · rw [if_pos hab, if_pos c1, if_pos d1] at hq
            rw [decodeLoop_ok_of_quantum f a _ _ rest hq, hih]
            cases rest with
            | nil => simp [wellFormedBase64, a1, b1, c1, d1]
            | cons e r => simp [wellFormedBase64, a1, b1, c1, d1]
          · rw [if_pos hab, if_pos c1, if_neg d1] at hq
            by_cases hp : d = padChar ∧ rest = []
            · rw [if_pos hp] at hq
              obtain ⟨hp1, hp2⟩ := hp
              subst hp1 hp2
              rw [decodeLoop_ok_of_quantum f a _ _ [] hq]
              cases f <;> simp [decodeLoop, wellFormedBase64, a1, b1, c1]
            · rw [if_neg hp] at hq
              have := decodeLoop_error_of_quantum f a _ hq
              have cp : c ≠ padChar := fun e => by
                rw [e, padChar_not_alphabet] at c1; exact absurd c1 (by simp)
              cases rest with
              | nil =>
                have dp : d ≠ padChar := fun e => hp ⟨e, rfl⟩
                simpa [wellFormedBase64, a1, b1, c1, d1, dp, cp] using this
              | cons e r => simpa [wellFormedBase64, a1, b1, c1, d1] using this
        · rw [if_pos hab, if_neg c1] at hq
          by_cases hp : c = padChar ∧ d = padChar ∧ rest = []
          · rw [if_pos hp] at hq
            obtain ⟨hp1, hp2, hp3⟩ := hp
            subst hp1 hp2 hp3
            rw [decodeLoop_ok_of_quantum f a _ _ [] hq]
            cases f <;> simp [decodeLoop, wellFormedBase64, a1, b1]
          · rw [if_neg hp] at hq
            have := decodeLoop_error_of_quantum f a _ hq
            cases rest with
            | nil =>
              have hp2 : ¬ (c = padChar ∧ d = padChar) := fun e => hp ⟨e.1, e.2, rfl⟩
              simpa [wellFormedBase64, a1, b1, c1, hp2] using this
            | cons e r => simpa [wellFormedBase64, a1, b1, c1] using this
      · rw [if_neg hab] at hq
        have := decodeLoop_error_of_quantum f a _ hq
        have hab2 : ¬ (isAlphabet a = true ∧ isAlphabet b = true) := by simpa using hab
        cases rest with
        | nil => simpa [wellFormedBase64, hab2] using this
        | cons e r => simpa [wellFormedBase64, hab2] using this

/-- The StdEncoding decoder accepts a text exactly when it is valid base64:
well-formed padded base64 once carriage returns and line feeds are dropped. -/
theorem DecodeString_ok_iff_valid (s : GoString) :
    (∃ x, DecodeString s = .ok x) ↔ validBase64 s := by
  rw [← DecodeString_dropNewlines]
  unfold DecodeString validBase64
  exact decodeLoop_ok_iff _ _ _ (le_refl _) (le_refl _) (dropNewlines_free s)

theorem mem_dropNewlines (s : GoString) (c : Byte) (hc : c ∈ s) (hn : ¬ (c = 10 ∨ c = 13)) :
    c ∈ dropNewlines s := by
  induction s with
  | nil => simp at hc
  | cons a tl ih =>
    unfold dropNewlines
    rcases List.mem_cons.1 hc with e | e
    · subst e
      simp [hn]
    · split
      · exact ih e
      · exact List.mem_cons_of_mem _ (ih e)

theorem wellFormedBase64_chars (t : GoString) :
    wellFormedBase64 t = true → ∀ c ∈ t, isAlphabet c = true ∨ c = padChar := by
  induction t using wellFormedBase64.induct with
  | case1 => intro _ c hc; simp at hc
  | case2 a b c d =>
    intro h x hx
    simp only [wellFormedBase64, Bool.and_eq_true, Bool.or_eq_true, decide_eq_true_eq] at h
    simp only [List.mem_cons, List.not_mem_nil, or_false] at hx
    rcases hx with rfl | rfl | rfl | rfl
    · exact Or.inl h.1.1
    · exact Or.inl h.1.2
    · rcases h.2 with h2 | h2
      · exact Or.inl h2.1
      · exact Or.inr h2.1
    · rcases h.2 with h2 | h2
      · exact h2.2
      · exact Or.inr h2.2
  | case3 a b c d rest hne ih =>
    intro h x hx
    rw [wellFormedBase64] at h
    · simp only [Bool.and_eq_true] at h
      simp only [List.mem_cons] at hx
      rcases hx with rfl | rfl | rfl | rfl | hx
      · exact Or.inl h.1.1.1.1
      · exact Or.inl h.1.1.1.2
      · exact Or.inl h.1.1.2
      · exact Or.inl h.1.2
      · exact ih h.2 x hx
    · exact hne
  | case4 t h1 h2 h3 =>
    intro h
    rw [wellFormedBase64] at h
    · exact absurd h (by simp)
    · exact h1
    · exact h2
    · exact h3

theorem validBase64_no_separator (p : GoString) (h : validBase64 p) : SEPARATOR ∉ p := by
  intro hm
  have h1 := mem_dropNewlines p SEPARATOR hm (by decide)
  rcases wellFormedBase64_chars _ h _ h1 with e | e
  · exact absurd e (by decide)
  · exact absurd e (by decide)

/-! ## The codec rejects malformed input -/

/-- C2. Decode rejects malformed input.  With the sentinel the byte 0x01, and a
part called valid base64 when, once its carriage returns and line feeds are
dropped, it is groups of four alphabet characters of which the last may end in one
or two padding characters (what the StdEncoding decoder accepts): `Decode s` is an
error when `s` does not split into exactly two parts on the sentinel, and when it
splits into two parts of which one is not valid base64; when `Decode s` returns a
KeyData, `s` is two valid base64 parts joined by one sentinel, and they decode to
its key and its data; and every such `s` is decoded. -/
theorem Decode_rejects_malformed (s : GoString) :
    ((Split s SEPARATOR).length ≠ 2 → ∃ e, Decode s = .error e) ∧
    (∀ p0 p1, Split s SEPARATOR = [p0, p1] → ¬ validBase64 p0 ∨ ¬ validBase64 p1 →
      ∃ e, Decode s = .error e) ∧
    (∀ kd, Decode s = .ok kd →
      ∃ p0 p1, s = p0 ++ [SEPARATOR] ++ p1 ∧ SEPARATOR ∉ p0 ∧ SEPARATOR ∉ p1 ∧
        validBase64 p0 ∧ validBase64 p1 ∧
        DecodeString p0 = .ok kd.key ∧ DecodeString p1 = .ok kd.data) ∧
    (∀ p0 p1, s = p0 ++ [SEPARATOR] ++ p1 → validBase64 p0 → validBase64 p1 →
      ∃ kd, Decode s = .ok kd) := by
  refine ⟨?_, ?_, ?_, ?_⟩
  · intro hlen
    unfold Decode
    split
    · rename_i p0 p1 hsp
      simp [hsp] at hlen
    · exact ⟨_, rfl⟩
  · intro p0 p1 hsp hbad
    unfold Decode
    rw [hsp]
    simp only
    cases h0 : DecodeString p0 with
    | error e0 => exact ⟨_, rfl⟩
    | ok key =>
      cases h1 : DecodeString p1 with
      | error e1 => exact ⟨_, rfl⟩
      | ok data =>
        rcases hbad with hb | hb
        · exact absurd ((DecodeString_ok_iff_valid p0).1 ⟨key, h0⟩) hb
        · exact absurd ((DecodeString_ok_iff_valid p1).1 ⟨data, h1⟩) hb
  · intro kd hok
    unfold Decode at hok
    split at hok
    · rename_i p0 p1 hsp
      obtain ⟨e1, e2, e3⟩ := Split_pair s p0 p1 SEPARATOR hsp
      cases h0 : DecodeString p0 with
      | error e0 => simp [h0] at hok
      | ok key =>
        cases h1 : DecodeString p1 with
        | error e0 => simp [h0, h1] at hok
        | ok data =>
          simp [h0, h1] at hok
          subst hok
          exact ⟨p0, p1, e1, e2, e3, (DecodeString_ok_iff_valid p0).1 ⟨key, h0⟩,
            (DecodeString_ok_iff_valid p1).1 ⟨data, h1⟩, h0, h1⟩
    · simp at hok
  · intro p0 p1 hs h0 h1
    obtain ⟨key, hk⟩ := (DecodeString_ok_iff_valid p0).2 h0
    obtain ⟨data, hd⟩ := (DecodeString_ok_iff_valid p1).2 h1
    refine ⟨⟨key, data⟩, ?_⟩
    unfold Decode
    rw [hs, List.append_assoc, List.singleton_append,
      Split_append _ _ _ (validBase64_no_separator p0 h0),
      Split_no_sep _ _ (validBase64_no_separator p1 h1)]
    simp only [hk, hd]

/-- A witness for C2: a string without sentinel, a string with two sentinels, and a
string whose second part is not valid base64 are rejected; an accepted string has
the stated shape; and a string of two valid parts, the second with a line feed
after it, is decoded. -/
theorem Decode_rejects_malformed_witness :
    (∃ e, Decode (bytesOf "QQ==") = .error e) ∧
    (∃ e, Decode (bytesOf "QQ==\x01Qg==\x01Qw==") = .error e) ∧
    (∃ e, Decode (bytesOf "QQ==\x01Q") = .error e) ∧
    (∃ p0 p1, bytesOf "QQ==\x01Qg==" = p0 ++ [SEPARATOR] ++ p1 ∧ SEPARATOR ∉ p0 ∧
      SEPARATOR ∉ p1 ∧ validBase64 p0 ∧ validBase64 p1 ∧
      DecodeString p0 = .ok [65] ∧ DecodeString p1 = .ok [66]) ∧
    (∃ kd, Decode (bytesOf "QQ==\x01Qg==\n") = .ok kd) :=
  ⟨(Decode_rejects_malformed (bytesOf "QQ==")).1 (by decide),
   (Decode_rejects_malformed (bytesOf "QQ==\x01Qg==\x01Qw==")).1 (by decide),
   (Decode_rejects_malformed (bytesOf "QQ==\x01Q")).2.1 (bytesOf "QQ==") (bytesOf "Q")
      (by decide) (Or.inr (by decide)),
   (Decode_rejects_malformed (bytesOf "QQ==\x01Qg==")).2.2.1 ⟨[65], [66]⟩ (by decide),
   (Decode_rejects_malformed (bytesOf "QQ==\x01Qg==\n")).2.2.2 (bytesOf "QQ==")
      (bytesOf "Qg==\n") (by decide) (by decide) (by decide)⟩

/-! ## Reading lines -/

theorem readUntil_line (body after : GoString) (h : (10 : Byte) ∉ body) :
    readUntil 10 (body ++ 10 :: after) = some (body ++ [10], after) := by
  induction body with
  | nil => simp [readUntil]
  | cons c rest ih =>
    have hc : c ≠ 10 := fun e => h (by simp [e])
    have hr : (10 : Byte) ∉ rest := fun e => h (List.mem_cons_of_mem _ e)
    simp [readUntil, hc, ih hr]

theorem ReadString_line (body after : GoString) (h : (10 : Byte) ∉ body) :
    ReadString 10 (body ++ [10] ++ after) = ((body ++ [10], none), after) := by
  unfold ReadString
  rw [List.append_assoc, List.singleton_append, readUntil_line body after h]

theorem Restore_loop_lines (bodies : List GoString) :
    ∀ (fuel counter : Nat) (pushed : List GoString), (∀ b ∈ bodies, (10 : Byte) ∉ b) →
      bodies.length + 1 ≤ fuel →
      redisRestorerImpl.Restore.loop (ReadString 10) fuel (fileOfLines bodies) counter pushed
        = some ⟨counter + bodies.length, pushed ++ bodies.map (fun b => b ++ [10])⟩ := by
  induction bodies with
  | nil =>
    intro fuel counter pushed _ hf
    obtain ⟨f, rfl⟩ : ∃ f, fuel = f + 1 := ⟨fuel - 1, by simp at hf; omega⟩
    simp [fileOfLines, redisRestorerImpl.Restore.loop, ReadString, readUntil]
  | cons b rest ih =>
    intro fuel counter pushed hb hf
    obtain ⟨f, rfl⟩ : ∃ f, fuel = f + 1 := ⟨fuel - 1, by simp at hf; omega⟩
    have hb0 : (10 : Byte) ∉ b := hb b (List.mem_cons_self _ _)
    have e : fileOfLines (b :: rest) = b ++ [10] ++ fileOfLines rest := by
      simp [fileOfLines]
    rw [e]
    unfold redisRestorerImpl.Restore.loop
    rw [ReadString_line b _ hb0]
    simp only
    rw [ih f (counter + 1) (pushed ++ [b ++ [10]])
      (fun c hc => hb c (List.mem_cons_of_mem _ hc)) (by simp at hf; omega)]
    simp only [List.length_cons, List.map_cons, List.append_assoc, List.singleton_append]
    congr 2
    omega

theorem fileOfLines_length (bodies : List GoString) :
    bodies.length ≤ (fileOfLines bodies).length := by
  induction bodies with
  | nil => simp
  | cons b rest ih =>
    have e : fileOfLines (b :: rest) = b ++ [10] ++ fileOfLines rest := by
      simp [fileOfLines]
    rw [e]
    simp only [List.length_cons, List.length_append, List.length_nil]
    omega

theorem Restore_fileOfLines (bodies : List GoString) (h : ∀ b ∈ bodies, (10 : Byte) ∉ b) :
    redisRestorerImpl.Restore (fileOfLines bodies)
      = some ⟨bodies.length, bodies.map (fun b => b ++ [10])⟩ := by
  unfold redisRestorerImpl.Restore
  have := Restore_loop_lines bodies ((fileOfLines bodies).length + 1) 0 [] h
    (by have := fileOfLines_length bodies; omega)
  simpa using this

theorem readUntil_none (s : GoString) (h : readUntil 10 s = none) : s.count 10 = 0 := by
  induction s with
  | nil => rfl
  | cons c tl ih =>
    unfold readUntil at h
    split at h
    · simp at h
    · rename_i hc
      split at h
      · rename_i hn
        rw [List.count_cons, ih hn]
        simp [hc]
      · simp at h

theorem readUntil_some (s line after : GoString) (h : readUntil 10 s = some (line, after)) :
    s = line ++ after ∧ line.count 10 = 1 ∧ line ≠ [] := by
  induction s generalizing line with
  | nil => simp [readUntil] at h
  | cons c tl ih =>
    unfold readUntil at h
    split at h
    · rename_i hc
      simp at h
      obtain ⟨h1, h2⟩ := h
      subst h1 h2 hc
      simp
    · rename_i hc
      split at h
      · simp at h
      · rename_i l2 a2 hs
        simp at h
        obtain ⟨h1, h2⟩ := h
        subst h1 h2
        obtain ⟨e1, e2, _⟩ := ih l2 hs
        refine ⟨by rw [e1]; rfl, ?_, by simp⟩
        rw [List.count_cons, e2]
        simp [hc]

/-- The loop of `Restore` on a file returns with the fuel it is given: it returns
the number of line terminators in the file, having sent that many lines. -/
theorem Restore_loop_returns (n : Nat) :
    ∀ (content : GoString) (fuel counter : Nat) (pushed : List GoString),
      content.length ≤ n → content.length + 1 ≤ fuel →
      ∃ lines : List GoString, lines.length = content.count 10 ∧
        redisRestorerImpl.Restore.loop (ReadString 10) fuel content counter pushed
          = some ⟨counter + content.count 10, pushed ++ lines⟩ := by
  induction n with
  | zero =>
    intro content fuel counter pushed h1 h2
    have : content = [] := List.length_eq_zero.1 (by omega)
    subst this
    obtain ⟨f, rfl⟩ : ∃ f, fuel = f + 1 := ⟨fuel - 1, by simp at h2; omega⟩
    exact ⟨[], rfl, by simp [redisRestorerImpl.Restore.loop, ReadString, readUntil]⟩
  | succ m ih =>
    intro content fuel counter pushed h1 h2
    obtain ⟨f, rfl⟩ : ∃ f, fuel = f + 1 := ⟨fuel - 1, by omega⟩
    cases hr : readUntil 10 content with
    | none =>
      refine ⟨[], by rw [readUntil_none content hr]; rfl, ?_⟩
      simp [redisRestorerImpl.Restore.loop, ReadString, hr, readUntil_none content hr]
    | some p =>
      obtain ⟨line, after⟩ := p
      obtain ⟨e1, e2, e3⟩ := readUntil_some content line after hr
      have hl : 0 < line.length := List.length_pos.2 e3
      have hlen : content.length = line.length + after.length := by rw [e1]; simp
      obtain ⟨lines, hl1, hl2⟩ := ih after f (counter + 1) (pushed ++ [line])
        (by omega) (by omega)
      refine ⟨line :: lines, ?_, ?_⟩
      · rw [e1, List.count_append, e2, List.length_cons, hl1]
        omega
      · unfold redisRestorerImpl.Restore.loop
        simp only [ReadString, hr]
        rw [hl2, e1, List.count_append, e2]
        simp only [List.append_assoc, List.singleton_append]
        congr 2
        omega

theorem Restore_returns (content : GoString) :
    ∃ lines : List GoString, lines.length = content.count 10 ∧
      redisRestorerImpl.Restore content = some ⟨content.count 10, lines⟩ := by
  obtain ⟨lines, h1, h2⟩ :=
    Restore_loop_returns content.length content (content.length + 1) 0 [] (le_refl _) (le_refl _)
  exact ⟨lines, h1, by simpa [redisRestorerImpl.Restore] using h2⟩

/-- C5 (as stated, refuted).  A dump file of one record line followed by a blank
line has one non-empty line, but `Restore` sends two lines to the queue and returns
2; a file holding one record without its line terminator has one non-empty line,
but `Restore` sends nothing and returns 0. -/
theorem Restore_count_is_not_nonempty_lines :
    (redisRestorerImpl.Restore (bytesOf "QQ==\x01Qg==\n\n")
        = some ⟨2, [bytesOf "QQ==\x01Qg==\n", bytesOf "\n"]⟩ ∧
      nonEmptyLineCount (bytesOf "QQ==\x01Qg==\n\n") = 1) ∧
    (redisRestorerImpl.Restore (bytesOf "QQ==\x01Qg==") = some ⟨0, []⟩ ∧
      nonEmptyLineCount (bytesOf "QQ==\x01Qg==") = 1) := by
  decide

/-- C5 (amended).  For a dump file in which every line ends with the terminator,
`Restore` returns the number of lines, blank ones included, and sends each line
with its terminator to the queue once, in file order; the number returned by a run
of the pipeline is that number whatever the decoder and the store client do. -/
theorem Restore_counts_terminated_lines (bodies : List GoString)
    (h : ∀ b ∈ bodies, (10 : Byte) ∉ b) :
    redisRestorerImpl.Restore (fileOfLines bodies)
      = some ⟨bodies.length, bodies.map (fun b => b ++ [10])⟩ ∧
    ∀ (τ : Type) (DecodeKeyData : GoString → Except GoError KeyData) (client : RedisClient τ)
      (st : τ),
      (redisRestorerImpl.run DecodeKeyData client (fileOfLines bodies) st).map Prod.fst
        = some bodies.length := by
  refine ⟨Restore_fileOfLines bodies h, ?_⟩
  intro τ D client st
  simp [redisRestorerImpl.run, Restore_fileOfLines bodies h]

/-- A witness for C5 (amended): a file of two valid lines and one malformed line.
`Restore` returns 3, and the store receives the two RESTORE commands of the valid
lines only. -/
theorem Restore_counts_terminated_lines_witness :
    (redisRestorerImpl.Restore (fileOfLines [bytesOf "QQ==\x01Qg==", bytesOf "oops", bytesOf "Qw==\x01RA=="])
      = some ⟨3, [bytesOf "QQ==\x01Qg==\n", bytesOf "oops\n", bytesOf "Qw==\x01RA==\n"]⟩ ∧
    ∀ (τ : Type) (DecodeKeyData : GoString → Except GoError KeyData) (client : RedisClient τ)
      (st : τ),
      (redisRestorerImpl.run DecodeKeyData client
          (fileOfLines [bytesOf "QQ==\x01Qg==", bytesOf "oops", bytesOf "Qw==\x01RA=="]) st).map
        Prod.fst = some 3) ∧
    redisRestorerImpl.run Decode (recordingClient (fun _ => (.status (bytesOf "OK"), none)))
        (bytesOf "QQ==\x01Qg==\noops\nQw==\x01RA==\n") []
      = some (3, [⟨"RESTORE", [.bytes [65], .int 0, .bytes [66], .str "REPLACE"]⟩,
                  ⟨"RESTORE", [.bytes [67], .int 0, .bytes [68], .str "REPLACE"]⟩]) :=
  ⟨Restore_counts_terminated_lines
      [bytesOf "QQ==\x01Qg==", bytesOf "oops", bytesOf "Qw==\x01RA=="] (by decide),
    by decide⟩

theorem Encode_no_newline (x : KeyData) : (10 : Byte) ∉ Encode x := by
  intro hm
  unfold Encode at hm
  simp only [List.mem_append, List.mem_singleton] at hm
  rcases hm with (hm | hm) | hm
  · exact (EncodeToString_chars _ _ hm).2.1 rfl
  · exact absurd hm (by decide)
  · exact (EncodeToString_chars _ _ hm).2.1 rfl

theorem Decode_Encode_newline (kd : KeyData) : Decode (Encode kd ++ [10]) = .ok kd := by
  have hk : SEPARATOR ∉ EncodeToString kd.key := fun h => (EncodeToString_chars _ _ h).1 rfl
  have hv : SEPARATOR ∉ EncodeToString kd.data := fun h => (EncodeToString_chars _ _ h).1 rfl
  have hv2 : SEPARATOR ∉ EncodeToString kd.data ++ [10] := by
    intro hm
    rcases List.mem_append.1 hm with hm | hm
    · exact hv hm
    · exact absurd hm (by decide)
  have hs : Split (Encode kd ++ [10]) SEPARATOR
      = [EncodeToString kd.key, EncodeToString kd.data ++ [10]] := by
    unfold Encode
    rw [List.append_assoc, List.append_assoc, List.singleton_append,
      Split_append _ _ _ hk, Split_no_sep _ _ hv2]
  unfold Decode
  rw [hs]
  simp only [DecodeString_EncodeToString, DecodeString_EncodeToString_newline]

theorem dataDump_eq_fileOfLines (enc : KeyData → GoString) (kds : List KeyData) :
    redisDumperImpl.dataDump enc kds = fileOfLines (kds.map enc) := by
  induction kds with
  | nil => rfl
  | cons x rest ih => simp [redisDumperImpl.dataDump, fileOfLines, ih]

/-- C10. What the dump writes, the restore reads back.  For every KeyData `kd`:
the record the writer emits is `Encode kd` followed by the terminator; `Encode kd`
holds no line terminator and exactly one sentinel; `ReadString` returns the record
as one whole line, terminator included, whatever follows it in the file; `Decode`
of that line with the terminator attached returns `kd`; and a file written from
any list of KeyData is read back by `Restore` as exactly those records. -/
theorem dump_record_read_back (kd : KeyData) :
    redisDumperImpl.dataDump Encode [kd] = Encode kd ++ [10] ∧
    (10 : Byte) ∉ Encode kd ∧
    (Encode kd).count SEPARATOR = 1 ∧
    (∀ after : GoString,
      ReadString 10 (Encode kd ++ [10] ++ after) = ((Encode kd ++ [10], none), after)) ∧
    Decode (Encode kd ++ [10]) = .ok kd ∧
    (∀ kds : List KeyData,
      redisRestorerImpl.Restore (redisDumperImpl.dataDump Encode kds)
        = some ⟨kds.length, kds.map (fun x => Encode x ++ [10])⟩) := by
  have hk : SEPARATOR ∉ EncodeToString kd.key := fun h => (EncodeToString_chars _ _ h).1 rfl
  have hv : SEPARATOR ∉ EncodeToString kd.data := fun h => (EncodeToString_chars _ _ h).1 rfl
  refine ⟨by simp [redisDumperImpl.dataDump], Encode_no_newline kd, ?_, ?_,
    Decode_Encode_newline kd, ?_⟩
  · unfold Encode
    simp [List.count_append, List.count_eq_zero_of_not_mem hk, List.count_eq_zero_of_not_mem hv]
  · intro after
    exact ReadString_line _ _ (Encode_no_newline kd)
  · intro kds
    rw [dataDump_eq_fileOfLines, Restore_fileOfLines (kds.map Encode) (by
      intro b hb
      obtain ⟨x, _, rfl⟩ := List.mem_map.1 hb
      exact Encode_no_newline x)]
    simp

/-- C8. RestoreLine is the boundary between the dump file and the store.  With a
client that records the commands it is given: when decoding the line fails,
RestoreLine returns that error and no command is issued; when decoding gives
`kd`, exactly one command is issued, RESTORE with the arguments key, 0, payload,
"REPLACE", and RestoreLine returns the error of that command, or none when the
command returns none. -/
theorem RestoreLine_boundary (DecodeKeyData : GoString → Except GoError KeyData)
    (reply : Command → DoResult) (log : List Command) (line : GoString) :
    (∀ e, DecodeKeyData line = .error e →
      redisRestorerImpl.RestoreLine DecodeKeyData (recordingClient reply) log line
        = (some e, log)) ∧
    (∀ kd, DecodeKeyData line = .ok kd →
      redisRestorerImpl.RestoreLine DecodeKeyData (recordingClient reply) log line
        = ((reply ⟨"RESTORE", [.bytes kd.key, .int 0, .bytes kd.data, .str "REPLACE"]⟩).2,
           log ++ [⟨"RESTORE", [.bytes kd.key, .int 0, .bytes kd.data, .str "REPLACE"]⟩])) := by
  constructor
  · intro e he
    simp [redisRestorerImpl.RestoreLine, he]
  · intro kd hkd
    simp only [redisRestorerImpl.RestoreLine, hkd, recordingClient, redigoRedisClient]
    rcases hr : reply ⟨"RESTORE", [.bytes kd.key, .int 0, .bytes kd.data, .str "REPLACE"]⟩
      with ⟨r, _ | e⟩ <;> rfl

/-- A witness for C8 with the decoder of keydata.go: a malformed line issues no
command; a valid line issues one RESTORE, and the error of the command, if any, is
returned. -/
theorem RestoreLine_boundary_witness :
    redisRestorerImpl.RestoreLine Decode
        (recordingClient (fun _ => (.status (bytesOf "OK"), none))) [] (bytesOf "oops\n")
      = (some (.errorf "Cannot split string into key and value"), []) ∧
    redisRestorerImpl.RestoreLine Decode
        (recordingClient (fun _ => (.null, some (.transport "BUSYKEY")))) []
        (bytesOf "QQ==\x01Qg==\n")
      = (some (.transport "BUSYKEY"),
          [⟨"RESTORE", [.bytes [65], .int 0, .bytes [66], .str "REPLACE"]⟩]) :=
  ⟨(RestoreLine_boundary Decode (fun _ => (.status (bytesOf "OK"), none)) []
      (bytesOf "oops\n")).1 _ (by decide),
   (RestoreLine_boundary Decode (fun _ => (.null, some (.transport "BUSYKEY"))) []
      (bytesOf "QQ==\x01Qg==\n")).2 ⟨[65], [66]⟩ (by decide)⟩

/-! ## The dump pipeline -/

theorem keyFetch_keys {τ : Type} (client : RedisClient τ) (keys : List (List Byte)) :
    ∀ st : τ, (redisDumperImpl.keyFetch client st keys).1.map KeyData.key = keys := by
  induction keys with
  | nil => intro st; rfl
  | cons key rest ih =>
    intro st
    simp only [redisDumperImpl.keyFetch, List.map_cons]
    rw [ih]

theorem Dump_loop_scan {τ : Type} (client : RedisClient τ)
    (ps : List (List (List Byte) × Int)) :
    ∀ (fuel : Nat) (st : τ) (c : Int) (counter : Nat) (pushed : List (List Byte))
      (calls : List (Int × Int)), ScanRun client st c ps → ps.length ≤ fuel →
      redisDumperImpl.Dump.loop client fuel st c counter pushed calls
        = some (.ret ⟨counter + (ps.map (fun p => p.1.length)).sum,
            pushed ++ (ps.map Prod.fst).flatten,
            calls ++ ((c :: ps.map Prod.snd).dropLast).map (fun x => (x, 500))⟩) := by
  induction ps with
  | nil => intro fuel st c counter pushed calls h; exact absurd h (by simp [ScanRun])
  | cons p rest ih =>
    intro fuel st c counter pushed calls h hf
    obtain ⟨f, rfl⟩ : ∃ f, fuel = f + 1 := ⟨fuel - 1, by simp at hf; omega⟩
    cases rest with
    | nil =>
      obtain ⟨h1, h2⟩ := h
      unfold redisDumperImpl.Dump.loop
      rcases hk : client.Keys st c 500 with ⟨o, st1⟩
      rw [hk] at h1
      simp only at h1
      subst h1
      simp [h2]
    | cons q qs =>
      obtain ⟨h1, h2, h3⟩ := h
      unfold redisDumperImpl.Dump.loop
      rcases hk : client.Keys st c 500 with ⟨o, st1⟩
      rw [hk] at h1 h3
      simp only at h1 h3
      subst h1
      simp only [h2, if_false]
      rw [ih f st1 p.2 _ _ _ h3 (by simp at hf ⊢; omega)]
      simp [Nat.add_assoc]

/-- C3. Dump counts observations, not unique keys.  For every client whose
successive `Keys` calls, started at cursor 0 and continued with each returned
cursor, return without error the pages `ps`, the last page being the first with
next cursor 0: given fuel for `ps.length` iterations the loop of `Dump` returns;
it has called `Keys` with count 500 once per page, with cursor 0 and then each
returned cursor; it has sent the keys of all pages to the key queue in order; and
it returns the sum of the lengths of the pages. -/
theorem Dump_counts_observations {τ : Type} (client : RedisClient τ) (st : τ)
    (ps : List (List (List Byte) × Int)) (fuel : Nat)
    (h : ScanRun client st 0 ps) (hf : ps.length ≤ fuel) :
    redisDumperImpl.Dump client fuel st
      = some (.ret ⟨(ps.map (fun p => p.1.length)).sum, (ps.map Prod.fst).flatten,
          ((0 :: ps.map Prod.snd).dropLast).map (fun x => (x, 500))⟩) := by
  unfold redisDumperImpl.Dump
  rw [Dump_loop_scan client ps fuel st 0 0 [] [] h hf]
  simp

/-- A witness for C3 with the repository client on scripted SCAN replies: the
pages [k1,k2] and [k1,k3] give 4 with two calls (cursors 0 and 5); three keys
in one page give 3. -/
theorem Dump_counts_observations_witness :
    redisDumperImpl.Dump (redigoRedisClient scriptedConn) 2
        [(.array [.bulk (bytesOf "5"), .array [.bulk (bytesOf "k1"), .bulk (bytesOf "k2")]], none),
         (.array [.bulk (bytesOf "0"), .array [.bulk (bytesOf "k1"), .bulk (bytesOf "k3")]], none)]
      = some (.ret ⟨4, [bytesOf "k1", bytesOf "k2", bytesOf "k1", bytesOf "k3"],
          [(0, 500), (5, 500)]⟩) ∧
    redisDumperImpl.Dump (redigoRedisClient scriptedConn) 1
        [(.array [.bulk (bytesOf "0"),
          .array [.bulk (bytesOf "k1"), .bulk (bytesOf "k2"), .bulk (bytesOf "k3")]], none)]
      = some (.ret ⟨3, [bytesOf "k1", bytesOf "k2", bytesOf "k3"], [(0, 500)]⟩) :=
  ⟨Dump_counts_observations (redigoRedisClient scriptedConn) _
      [([bytesOf "k1", bytesOf "k2"], 5), ([bytesOf "k1", bytesOf "k3"], 0)] 2
      (by decide) (by decide),
   Dump_counts_observations (redigoRedisClient scriptedConn) _
      [([bytesOf "k1", bytesOf "k2", bytesOf "k3"], 0)] 1 (by decide) (by decide)⟩

/-- With an error the repository client returns no keys and cursor 0. -/
theorem KeysOf_error_cursor (r : DoResult) (ks : List (List Byte)) (c : Int) (e : GoError)
    (h : redigoRedisClient.KeysOf r = .ret (ks, c, some e)) : ks = [] ∧ c = 0 := by
  unfold redigoRedisClient.KeysOf at h
  repeat' split at h
  all_goals first
    | (simp at h; exact ⟨h.1, h.2.1.symm⟩)
    | (simp at h)

/-- After a failed call the loop goes on with the cursor the failed call has
returned, not with the cursor it has passed. -/
theorem Dump_loop_after_error {τ : Type} (client : RedisClient τ) (fuel : Nat) (st st1 : τ)
    (c c1 : Int) (ks : List (List Byte)) (e : GoError) (counter : Nat)
    (pushed : List (List Byte)) (calls : List (Int × Int))
    (h : client.Keys st c 500 = (.ret (ks, c1, some e), st1)) :
    redisDumperImpl.Dump.loop client (fuel + 1) st c counter pushed calls
      = redisDumperImpl.Dump.loop client fuel st1 c1 counter pushed (calls ++ [(c, 500)]) := by
  simp [redisDumperImpl.Dump.loop, h]

/-- C6 (the code at the failing input).  The repository client on scripted SCAN
results: a page with next cursor 7, then a transport error, then the same page
again and a last page.  After the failed call `Keys(7, 500)` the loop calls
`Keys(0, 500)`, not `Keys(7, 500)`: the failed call has returned cursor 0 and the
loop has stored it before looking at the error.  The scan starts over, the key k1
is sent twice, and Dump returns 3 for two keys. -/
theorem Dump_retry_restarts_scan :
    redisDumperImpl.Dump (redigoRedisClient scriptedConn) 4
        [(.array [.bulk (bytesOf "7"), .array [.bulk (bytesOf "k1")]], none),
         (.null, some (.transport "i/o timeout")),
         (.array [.bulk (bytesOf "7"), .array [.bulk (bytesOf "k1")]], none),
         (.array [.bulk (bytesOf "0"), .array [.bulk (bytesOf "k2")]], none)]
      = some (.ret ⟨3, [bytesOf "k1", bytesOf "k1", bytesOf "k2"],
          [(0, 500), (7, 500), (0, 500), (7, 500)]⟩) := by
  decide

theorem Dump_loop_counter {τ : Type} (client : RedisClient τ) (fuel : Nat) :
    ∀ (st : τ) (c : Int) (counter : Nat) (pushed : List (List Byte)) (calls : List (Int × Int))
      (r : DumpResult),
      redisDumperImpl.Dump.loop client fuel st c counter pushed calls = some (.ret r) →
      r.counter + pushed.length = counter + r.pushed.length := by
  induction fuel with
  | zero => intro st c counter pushed calls r h; simp [redisDumperImpl.Dump.loop] at h
  | succ f ih =>
    intro st c counter pushed calls r h
    unfold redisDumperImpl.Dump.loop at h
    split at h
    · simp at h
    · rename_i keys c1 err st1 hk
      split at h
      · exact ih _ _ _ _ _ _ h
      · split at h
        · simp at h
          subst h
          simp
          omega
        · have := ih _ _ _ _ _ _ h
          simp at this
          omega

theorem keyFetch_length {τ : Type} (client : RedisClient τ) (keys : List (List Byte)) (st : τ) :
    (redisDumperImpl.keyFetch client st keys).1.length = keys.length := by
  have := congrArg List.length (keyFetch_keys client keys st)
  simpa using this

theorem DumpKey_of_Do {τ : Type} (client : RedisClient τ) (s : τ) (key : List Byte) :
    redisDumperImpl.DumpKey client s key
      = (((recordedPayload (client.Do s (dumpCommand key)).1,
            (redisDumperImpl.DumpKey client s key).1.2)),
          (client.Do s (dumpCommand key)).2) ∧
    (redisDumperImpl.DumpKey client s key).1.2.isNone
      = fetchSucceeds (client.Do s (dumpCommand key)).1 := by
  unfold redisDumperImpl.DumpKey dumpCommand
  rcases client.Do s ⟨"DUMP", [.bytes key]⟩ with ⟨⟨reply, err⟩, s1⟩
  cases err with
  | some e => cases reply <;> exact ⟨rfl, rfl⟩
  | none => cases reply <;> exact ⟨rfl, rfl⟩

theorem keyFetch_cons {τ : Type} (client : RedisClient τ) (s : τ) (key : List Byte)
    (post : List (List Byte)) :
    redisDumperImpl.keyFetch client s (key :: post)
      = (⟨key, recordedPayload (client.Do s (dumpCommand key)).1⟩ ::
            (redisDumperImpl.keyFetch client (client.Do s (dumpCommand key)).2 post).1,
          (redisDumperImpl.keyFetch client (client.Do s (dumpCommand key)).2 post).2) := by
  have h := (DumpKey_of_Do client s key).1
  rw [redisDumperImpl.keyFetch, h]

theorem keyFetch_append {τ : Type} (client : RedisClient τ) (pre rest : List (List Byte)) :
    ∀ st : τ, redisDumperImpl.keyFetch client st (pre ++ rest)
      = ((redisDumperImpl.keyFetch client st pre).1 ++
            (redisDumperImpl.keyFetch client (redisDumperImpl.keyFetch client st pre).2 rest).1,
          (redisDumperImpl.keyFetch client (redisDumperImpl.keyFetch client st pre).2 rest).2) := by
  induction pre with
  | nil => intro st; rfl
  | cons k tl ih =>
    intro st
    rw [List.cons_append, keyFetch_cons, keyFetch_cons, ih]
    rfl

theorem keyFetch_recording (reply : Command → DoResult) (keys : List (List Byte)) :
    ∀ log : List Command,
      redisDumperImpl.keyFetch (recordingClient reply) log keys
        = (keys.map (fun k => ⟨k, recordedPayload (reply (dumpCommand k))⟩),
            log ++ keys.map dumpCommand) := by
  induction keys with
  | nil => intro log; simp [redisDumperImpl.keyFetch]
  | cons k tl ih =>
    intro log
    rw [keyFetch_cons]
    simp only [recordingClient, redigoRedisClient] at ih ⊢
    rw [ih]
    simp

theorem Dump_loop_congr {σ : Type} (c1 c2 : RedisClient σ)
    (h : ∀ s cursor count, c1.Keys s cursor count = c2.Keys s cursor count) (fuel : Nat) :
    ∀ (st : σ) (c : Int) (counter : Nat) (pushed : List (List Byte)) (calls : List (Int × Int)),
      redisDumperImpl.Dump.loop c1 fuel st c counter pushed calls
        = redisDumperImpl.Dump.loop c2 fuel st c counter pushed calls := by
  induction fuel with
  | zero => intro st c counter pushed calls; rfl
  | succ f ih =>
    intro st c counter pushed calls
    simp only [redisDumperImpl.Dump.loop, h, ih]

/-- C4. Fetch failures are recorded, not dropped.  For every client, state and
key.  Whatever keys the fetch worker has taken before (`pre`) and takes after
(`post`), for the key it issues the DUMP command in the state the earlier fetches
have left and sends one KeyData with that key, whose payload is the reply when the
fetch succeeds and the empty payload when it fails; DumpKey fails exactly when the
command returns an error or a reply that is not a byte string.  With a client that
records its commands, a worker that takes the keys `keys` issues exactly one DUMP
per key, in order, and sends exactly one KeyData per key, in order.  Every line the
writer emits for a KeyData of the worker decodes, terminator attached, to that
KeyData, so the line of a failed key decodes to the key with an empty value.  The
value `Dump` returns is the same for all clients that answer `Keys` alike, whatever
they answer to DUMP; a run of the pipeline returns the number of keys sent to the
key queue and writes one line for each of them. -/
theorem fetch_failures_recorded {τ : Type} (client : RedisClient τ) (st : τ) (key : List Byte) :
    (∀ keys : List (List Byte),
      (redisDumperImpl.keyFetch client st keys).1.map KeyData.key = keys) ∧
    (∀ payload st1, client.Do st ⟨"DUMP", [.bytes key]⟩ = ((.bulk payload, none), st1) →
      redisDumperImpl.keyFetch client st [key] = ([⟨key, payload⟩], st1)) ∧
    (∀ data e st1, redisDumperImpl.DumpKey client st key = ((data, some e), st1) →
      redisDumperImpl.keyFetch client st [key] = ([⟨key, []⟩], st1) ∧
      Decode (redisDumperImpl.dataDump Encode [⟨key, []⟩]) = .ok ⟨key, []⟩) ∧
    (∀ (σ : Type) (scan : RedisClient σ) (fuel : Nat) (s0 : σ) (r : DumpResult),
      redisDumperImpl.Dump scan fuel s0 = some (.ret r) →
      r.counter = r.pushed.length ∧
      ∃ kds : List KeyData, kds.length = r.counter ∧
        redisDumperImpl.run Encode scan client fuel s0 st
          = some (.ret (r.counter, fileOfLines (kds.map Encode)))) ∧
    (∀ (σ : Type) (scan : RedisClient σ) (fuel : Nat) (s0 : σ) (τ2 : Type)
      (client2 : RedisClient τ2) (st2 : τ2),
      (redisDumperImpl.run Encode scan client fuel s0 st).map (Outcome.map Prod.fst)
        = (redisDumperImpl.run Encode scan client2 fuel s0 st2).map (Outcome.map Prod.fst)) ∧
    (∀ pre post : List (List Byte),
      redisDumperImpl.keyFetch client st (pre ++ key :: post)
        = ((redisDumperImpl.keyFetch client st pre).1 ++
              ⟨key, recordedPayload
                (client.Do (redisDumperImpl.keyFetch client st pre).2 (dumpCommand key)).1⟩ ::
              (redisDumperImpl.keyFetch client
                (client.Do (redisDumperImpl.keyFetch client st pre).2 (dumpCommand key)).2
                post).1,
            (redisDumperImpl.keyFetch client
              (client.Do (redisDumperImpl.keyFetch client st pre).2 (dumpCommand key)).2
              post).2)) ∧
    (∀ s : τ,
      (redisDumperImpl.DumpKey client s key).1.1
          = recordedPayload (client.Do s (dumpCommand key)).1 ∧
        (redisDumperImpl.DumpKey client s key).1.2.isNone
          = fetchSucceeds (client.Do s (dumpCommand key)).1 ∧
        (redisDumperImpl.DumpKey client s key).2 = (client.Do s (dumpCommand key)).2) ∧
    (∀ (reply : Command → DoResult) (log : List Command) (keys : List (List Byte)),
      redisDumperImpl.keyFetch (recordingClient reply) log keys
        = (keys.map (fun k => ⟨k, recordedPayload (reply (dumpCommand k))⟩),
            log ++ keys.map dumpCommand)) ∧
    (∀ keys : List (List Byte),
      (redisDumperImpl.keyFetch client st keys).1.map
          (fun kd => Decode (redisDumperImpl.dataDump Encode [kd]))
        = (redisDumperImpl.keyFetch client st keys).1.map Except.ok) ∧
    (∀ (σ : Type) (c1 c2 : RedisClient σ) (fuel : Nat) (s0 : σ),
      (∀ s cursor count, c1.Keys s cursor count = c2.Keys s cursor count) →
      redisDumperImpl.Dump c1 fuel s0 = redisDumperImpl.Dump c2 fuel s0) ∧
    (∀ (σ : Type) (scan : RedisClient σ) (fuel : Nat) (s0 : σ) (r : DumpResult)
      (reply : Command → DoResult),
      redisDumperImpl.Dump scan fuel s0 = some (.ret r) →
      redisDumperImpl.run Encode scan (recordingClient reply) fuel s0 []
        = some (.ret (r.pushed.length,
            fileOfLines (r.pushed.map
              (fun k => Encode ⟨k, recordedPayload (reply (dumpCommand k))⟩))))) := by
  refine ⟨fun keys => keyFetch_keys client keys st, ?_, ?_, ?_, ?_, ?_, ?_, ?_, ?_, ?_, ?_⟩
  · intro payload st1 h
    simp [redisDumperImpl.keyFetch, redisDumperImpl.DumpKey, h]
  · intro data e st1 h
    constructor
    · have hd : data = [] := by
        unfold redisDumperImpl.DumpKey at h
        split at h
        · simp at h; exact h.1.1
        · split at h
          · simp at h
          · simp at h; exact h.1.1
      subst hd
      simp [redisDumperImpl.keyFetch, h]
    · simpa [redisDumperImpl.dataDump] using Decode_Encode_newline ⟨key, []⟩
  · intro σ scan fuel s0 r h
    have hc : r.counter = r.pushed.length := by
      have := Dump_loop_counter scan fuel s0 0 0 [] [] r h
      simpa using this
    refine ⟨hc, (redisDumperImpl.keyFetch client st r.pushed).1, ?_, ?_⟩
    · rw [keyFetch_length, hc]
    · simp [redisDumperImpl.run, h, dataDump_eq_fileOfLines]
  · intro σ scan fuel s0 τ2 client2 st2
    unfold redisDumperImpl.run
    cases redisDumperImpl.Dump scan fuel s0 with
    | none => rfl
    | some o => cases o <;> rfl
  · intro pre post
    rw [keyFetch_append, keyFetch_cons]
  · intro s
    have h := DumpKey_of_Do client s key
    refine ⟨?_, h.2, ?_⟩
    · exact congrArg (fun x => x.1.1) h.1
    · exact congrArg (fun x => x.2) h.1
  · intro reply log keys
    exact keyFetch_recording reply keys log
  · intro keys
    apply List.map_congr_left
    intro kd _
    simpa [redisDumperImpl.dataDump] using Decode_Encode_newline kd
  · intro σ c1 c2 fuel s0 h
    exact Dump_loop_congr c1 c2 h fuel s0 0 0 [] []
  · intro σ scan fuel s0 r reply h
    have hc : r.counter = r.pushed.length := by
      have := Dump_loop_counter scan fuel s0 0 0 [] [] r h
      simpa using this
    simp [redisDumperImpl.run, h, dataDump_eq_fileOfLines, keyFetch_recording, hc,
      Function.comp_def]

/-- A witness for C4.  The store holds k1 and k3, the scan reports k1, k2 and k3
in one page.  The fetch of k2 fails (a nil reply) between two fetches that succeed:
the worker issues three DUMP commands and sends three KeyData, the one of k2 with
an empty payload; the file has a line for each key and the line of k2 decodes to
the key with an empty value; `Dump` returns 3, as it does on a store that answers
every DUMP with a payload and on a connection on which every DUMP fails. -/
theorem fetch_failures_recorded_witness :
    redisDumperImpl.keyFetch
        (recordingClient (fun cmd =>
          if cmd = ⟨"DUMP", [.bytes (bytesOf "k2")]⟩ then (.null, none) else (.bulk [0, 1, 10], none)))
        [] [bytesOf "k1"]
      = ([⟨bytesOf "k1", [0, 1, 10]⟩], [⟨"DUMP", [.bytes (bytesOf "k1")]⟩]) ∧
    (redisDumperImpl.keyFetch
        (recordingClient (fun cmd =>
          if cmd = ⟨"DUMP", [.bytes (bytesOf "k2")]⟩ then (.null, none) else (.bulk [0, 1, 10], none)))
        [] [bytesOf "k2"]
      = ([⟨bytesOf "k2", []⟩], [⟨"DUMP", [.bytes (bytesOf "k2")]⟩]) ∧
      Decode (redisDumperImpl.dataDump Encode [⟨bytesOf "k2", []⟩]) = .ok ⟨bytesOf "k2", []⟩) ∧
    redisDumperImpl.keyFetch
        (recordingClient (fun cmd =>
          if cmd = ⟨"DUMP", [.bytes (bytesOf "k2")]⟩ then (.null, none) else (.bulk [0, 1, 10], none)))
        [] [bytesOf "k1", bytesOf "k2", bytesOf "k3"]
      = ([⟨bytesOf "k1", [0, 1, 10]⟩, ⟨bytesOf "k2", []⟩, ⟨bytesOf "k3", [0, 1, 10]⟩],
          [⟨"DUMP", [.bytes (bytesOf "k1")]⟩, ⟨"DUMP", [.bytes (bytesOf "k2")]⟩,
            ⟨"DUMP", [.bytes (bytesOf "k3")]⟩]) ∧
    ((3 : Nat) = [bytesOf "k1", bytesOf "k2", bytesOf "k3"].length ∧
      ∃ kds : List KeyData, kds.length = 3 ∧
        redisDumperImpl.run Encode (redigoRedisClient scriptedConn)
            (recordingClient (fun _ => (.null, some (.transport "i/o timeout"))))
            1 [(.array [.bulk (bytesOf "0"),
                .array [.bulk (bytesOf "k1"), .bulk (bytesOf "k2"), .bulk (bytesOf "k3")]], none)]
            []
          = some (.ret (3, fileOfLines (kds.map Encode)))) ∧
    redisDumperImpl.Dump
        (redigoRedisClient (storeConn (fun k =>
          if k = bytesOf "k2" then (.null, none) else (.bulk [0, 1, 10], none))))
        1 [(.array [.bulk (bytesOf "0"),
            .array [.bulk (bytesOf "k1"), .bulk (bytesOf "k2"), .bulk (bytesOf "k3")]], none)]
      = redisDumperImpl.Dump
        (redigoRedisClient (storeConn (fun _ => (.bulk [0, 1, 10], none))))
        1 [(.array [.bulk (bytesOf "0"),
            .array [.bulk (bytesOf "k1"), .bulk (bytesOf "k2"), .bulk (bytesOf "k3")]], none)] ∧
    redisDumperImpl.run Encode (redigoRedisClient scriptedConn)
        (recordingClient (fun cmd =>
          if cmd = ⟨"DUMP", [.bytes (bytesOf "k2")]⟩ then (.null, none) else (.bulk [0, 1, 10], none)))
        1 [(.array [.bulk (bytesOf "0"),
            .array [.bulk (bytesOf "k1"), .bulk (bytesOf "k2"), .bulk (bytesOf "k3")]], none)]
        []
      = some (.ret (3, bytesOf "azE=\x01AAEK\nazI=\x01\nazM=\x01AAEK\n")) :=
  ⟨(fetch_failures_recorded _ [] (bytesOf "k1")).2.1 [0, 1, 10] _ rfl,
   (fetch_failures_recorded _ [] (bytesOf "k2")).2.2.1 []
      (.errorf "Reply was not a byte array") _ (by decide),
   (fetch_failures_recorded (recordingClient (fun _ => (.null, none))) [] []).2.2.2.2.2.2.2.1
      _ [] [bytesOf "k1", bytesOf "k2", bytesOf "k3"],
   (fetch_failures_recorded
      (recordingClient (fun _ => (.null, some (.transport "i/o timeout")))) []
      (bytesOf "k1")).2.2.2.1 _ (redigoRedisClient scriptedConn) 1
      [(.array [.bulk (bytesOf "0"),
        .array [.bulk (bytesOf "k1"), .bulk (bytesOf "k2"), .bulk (bytesOf "k3")]], none)]
      ⟨3, [bytesOf "k1", bytesOf "k2", bytesOf "k3"], [(0, 500)]⟩ (by decide),
   (fetch_failures_recorded (recordingClient (fun _ => (.null, none))) []
      []).2.2.2.2.2.2.2.2.2.1 _ _ _ 1 _ (fun _ _ _ => rfl),
   (fetch_failures_recorded (recordingClient (fun _ => (.null, none))) []
      []).2.2.2.2.2.2.2.2.2.2 _ (redigoRedisClient scriptedConn) 1
      [(.array [.bulk (bytesOf "0"),
        .array [.bulk (bytesOf "k1"), .bulk (bytesOf "k2"), .bulk (bytesOf "k3")]], none)]
      ⟨3, [bytesOf "k1", bytesOf "k2", bytesOf "k3"], [(0, 500)]⟩ _ (by decide)⟩

/-! ## The scan client -/

/-- C7 (as stated, refuted).  A SCAN reply whose key array holds an element that
is not a byte string: `Keys` returns no error but a result, the keys k1 and k2 with
cursor 0; the element is skipped.  And a SCAN reply that is an array of the cursor
alone: `Keys` panics on the index 1. -/
theorem Keys_malformed_reply_not_an_error :
    (redigoRedisClient.Keys scriptedConn
        [(.array [.bulk (bytesOf "0"),
          .array [.bulk (bytesOf "k1"), .int 5, .bulk (bytesOf "k2")]], none)] 0 500).1
      = .ret ([bytesOf "k1", bytesOf "k2"], 0, none) ∧
    (redigoRedisClient.Keys scriptedConn [(.array [.bulk (bytesOf "0")], none)] 0 500).1
      = .panic "index out of range [1] with length 1" := by
  decide

theorem filterMap_asBytes_bulk (bs : List (List Byte)) :
    (bs.map Reply.bulk).filterMap Reply.asBytes = bs := by
  induction bs with
  | nil => rfl
  | cons b rest ih => simp [Reply.asBytes, ih]

/-- C7 (amended).  `Keys` returns what follows from the reply of its SCAN
command.  On a reply handed back without error: a reply that is not an array gives
an error; for an array of at least two elements, a first element
that is not a byte string gives an error, a byte string that `Atoi` rejects gives
that error, a second element that is not an array gives an error, and in no case
is there a panic; with a decimal cursor and an array as second element `Keys`
returns the parsed cursor and, in order, the elements that are byte strings
(elements of another kind are skipped), so all the keys when all are byte strings.
On every error the cursor returned is 0. -/
theorem Keys_on_reply :
    (∀ (τ : Type) (conn : τ → Command → DoResult × τ) (st : τ) (cursor count : Int),
      (redigoRedisClient.Keys conn st cursor count).1
        = redigoRedisClient.KeysOf
            (conn st ⟨"SCAN", [.int cursor, .str "COUNT", .int count]⟩).1) ∧
    (∀ reply : Reply, (∀ xs, reply ≠ .array xs) →
      redigoRedisClient.KeysOf (reply, none)
        = .ret ([], 0, some (.errorf "Reply did not match expected format"))) ∧
    (∀ (p0 p1 : Reply) (more : List Reply), (∀ b, p0 ≠ .bulk b) →
      redigoRedisClient.KeysOf (.array (p0 :: p1 :: more), none)
        = .ret ([], 0, some (.errorf "Cursor was not integer"))) ∧
    (∀ (cur : GoString) (e : GoError) (p1 : Reply) (more : List Reply), Atoi cur = .error e →
      redigoRedisClient.KeysOf (.array (.bulk cur :: p1 :: more), none)
        = .ret ([], 0, some e)) ∧
    (∀ (cur : GoString) (c : Int) (p1 : Reply) (more : List Reply), Atoi cur = .ok c →
      (∀ ks, p1 ≠ .array ks) →
      redigoRedisClient.KeysOf (.array (.bulk cur :: p1 :: more), none)
        = .ret ([], 0, some (.errorf "Keys was not interface\x7b\x7d array"))) ∧
    (∀ (cur : GoString) (c : Int) (ks more : List Reply), Atoi cur = .ok c →
      redigoRedisClient.KeysOf (.array (.bulk cur :: .array ks :: more), none)
        = .ret (ks.filterMap Reply.asBytes, c, none)) ∧
    (∀ (cur : GoString) (c : Int) (bs : List (List Byte)) (more : List Reply),
      Atoi cur = .ok c →
      redigoRedisClient.KeysOf (.array (.bulk cur :: .array (bs.map .bulk) :: more), none)
        = .ret (bs, c, none)) := by
  refine ⟨fun τ conn st cursor count => rfl, ?_, ?_, ?_, ?_, ?_, ?_⟩
  · intro reply h
    cases reply with
    | array xs => exact absurd rfl (h xs)
    | _ => rfl
  · intro p0 p1 more h
    cases p0 with
    | bulk b => exact absurd rfl (h b)
    | _ => rfl
  · intro cur e p1 more h
    simp [redigoRedisClient.KeysOf, h]
  · intro cur c p1 more h hp
    cases p1 with
    | array ks => exact absurd rfl (hp ks)
    | _ => simp [redigoRedisClient.KeysOf, h]
  · intro cur c ks more h
    simp [redigoRedisClient.KeysOf, h]
  · intro cur c bs more h
    simp only [redigoRedisClient.KeysOf, h]
    rw [filterMap_asBytes_bulk]

/-- A witness for C7 (amended): a status reply, an integer cursor, a cursor that
is not a number, a second element that is not an array, a key array with a
stray integer, and a well-shaped reply with cursor 42. -/
theorem Keys_on_reply_witness :
    redigoRedisClient.KeysOf (.status (bytesOf "OK"), none)
      = .ret ([], 0, some (.errorf "Reply did not match expected format")) ∧
    redigoRedisClient.KeysOf (.array [.int 7, .array []], none)
      = .ret ([], 0, some (.errorf "Cursor was not integer")) ∧
    redigoRedisClient.KeysOf (.array [.bulk (bytesOf "4x"), .array []], none)
      = .ret ([], 0, some .badNumber) ∧
    redigoRedisClient.KeysOf (.array [.bulk (bytesOf "42"), .bulk (bytesOf "k1")], none)
      = .ret ([], 0, some (.errorf "Keys was not interface\x7b\x7d array")) ∧
    redigoRedisClient.KeysOf
        (.array [.bulk (bytesOf "42"), .array [.bulk (bytesOf "k1"), .int 5]], none)
      = .ret ([bytesOf "k1"], 42, none) ∧
    redigoRedisClient.KeysOf
        (.array [.bulk (bytesOf "42"), .array [.bulk (bytesOf "k1"), .bulk (bytesOf "k2")]], none)
      = .ret ([bytesOf "k1", bytesOf "k2"], 42, none) :=
  ⟨Keys_on_reply.2.1 (.status (bytesOf "OK")) (fun _ h => Reply.noConfusion h),
   Keys_on_reply.2.2.1 (.int 7) (.array []) [] (fun _ h => Reply.noConfusion h),
   Keys_on_reply.2.2.2.1 (bytesOf "4x") .badNumber (.array []) [] (by decide),
   Keys_on_reply.2.2.2.2.1 (bytesOf "42") 42 (.bulk (bytesOf "k1")) [] (by decide)
      (fun _ h => Reply.noConfusion h),
   Keys_on_reply.2.2.2.2.2.1 (bytesOf "42") 42 [.bulk (bytesOf "k1"), .int 5] [] (by decide),
   Keys_on_reply.2.2.2.2.2.2 (bytesOf "42") 42 [bytesOf "k1", bytesOf "k2"] [] (by decide)⟩

/-! ## Close -/

/-- C9 (the code at failing inputs).  Close on a dumper whose key queue has been
closed by the producer and still holds a key panics with "close of closed
channel".  Close on a dumper whose open queues each hold a value takes both
values, closes both queues and returns nil; the next send of the producer on the
key queue then panics.  When in that state the writer fails to flush, Close
returns the error without calling cancel.  Close on a dumper whose open queues are
empty blocks.  Close on a restorer whose closed line queue still holds a line
panics. -/
theorem Close_panics_blocks_or_skips_cancel :
    redisDumperImpl.Close
        ⟨⟨[bytesOf "k1"], true, 500⟩, ⟨[], false, 500⟩, none, none, false⟩
      = .panicked "close of closed channel" ∧
    (redisDumperImpl.Close
        ⟨⟨[bytesOf "k1"], false, 500⟩, ⟨[⟨bytesOf "k0", [7]⟩], false, 500⟩, none, none, false⟩
      = .returned none ⟨⟨[], true, 500⟩, ⟨[], true, 500⟩, none, none, true⟩ ∧
      Chan.send (⟨[], true, 500⟩ : Chan (List Byte)) (bytesOf "k2")
        = some (.panic "send on closed channel")) ∧
    redisDumperImpl.Close
        ⟨⟨[bytesOf "k1"], false, 500⟩, ⟨[⟨bytesOf "k0", [7]⟩], false, 500⟩,
          some (.transport "no space left on device"), none, false⟩
      = .returned (some (.transport "no space left on device"))
          ⟨⟨[], true, 500⟩, ⟨[], true, 500⟩, some (.transport "no space left on device"), none,
            false⟩ ∧
    redisDumperImpl.Close ⟨⟨[], false, 500⟩, ⟨[], false, 500⟩, none, none, false⟩ = .blocked ∧
    redisRestorerImpl.Close ⟨⟨[bytesOf "QQ==\x01Qg==\n"], true, 500⟩, none, false⟩
      = .panicked "close of closed channel" := by
  decide

end Redump
